import Mathlib

/-!
Verification of the JSON-to-CSV converter (`src/memory_opt/json2csv_memory_opt.c`).

The C program is shallowly embedded: the byte buffer becomes `List Char`
(one `Char` per input byte; all data of interest is 8-bit), the recursive
descent parser becomes a fuelled total function returning `Except`, the
JSON tree becomes a mutual inductive family, and the two-region arena
allocator becomes an explicit record with a byte (`Char`) cell store.
Definition names follow the C function names.
-/

set_option maxHeartbeats 1000000
set_option autoImplicit false

/-- Character class used by `p_skip_ws`: the C `isspace` in the default
locale accepts space, `\t`, `\n`, `\v` (0x0B), `\f` (0x0C) and `\r`. -/
def c_isspace (c : Char) : Bool :=
  c = ' ' || c = '\t' || c = '\n' || c = Char.ofNat 11 || c = Char.ofNat 12 || c = '\r'

/-- C `isdigit`. -/
def c_isdigit (c : Char) : Bool :=
  '0' ≤ c && c ≤ '9'

/-- `hexval` from the source; `none` models the C return value -1. -/
def hexval (c : Char) : Option Nat :=
  if '0' ≤ c && c ≤ '9' then some (c.toNat - '0'.toNat)
  else if 'a' ≤ c && c ≤ 'f' then some (10 + (c.toNat - 'a'.toNat))
  else if 'A' ≤ c && c ≤ 'F' then some (10 + (c.toNat - 'A'.toNat))
  else none

/-- Parse errors: `syn` models a `die(msg)` call; `fuel` is the artificial
out-of-fuel marker of the embedding (never hit with the fuel supplied by
`parse_top`, and distinct from every syntax error). -/
inductive PErr where
  | fuel
  | syn (msg : String)
deriving DecidableEq

mutual

/-- JSON tree (`JValue` in the source).  Arrays and objects hold their own
inductively defined sequences so that all recursion is structural.
Number and string payloads are the decoded text (`StrSlice` content). -/
inductive JValue : Type where
  | jnull
  | jbool (b : Bool)
  | jnumber (s : String)
  | jstring (s : String)
  | jarray (items : JValueList)
  | jobject (members : JMembers)

/-- Backing sequence of a `J_ARRAY` node. -/
inductive JValueList : Type where
  | nil
  | cons (hd : JValue) (tl : JValueList)

/-- Backing sequence of a `J_OBJECT` node: ordered `(key, value)` members,
duplicates preserved (`jobject_add` appends unconditionally). -/
inductive JMembers : Type where
  | nil
  | cons (k : String) (v : JValue) (tl : JMembers)

end

/-- Append one element at the end (`jarray_push`). -/
def JValueList.snoc : JValueList → JValue → JValueList
  | .nil, v => .cons v .nil
  | .cons h t, v => .cons h (t.snoc v)

/-- Append one member at the end (`jobject_add`). -/
def JMembers.snoc : JMembers → String → JValue → JMembers
  | .nil, k, v => .cons k v .nil
  | .cons k0 v0 t, k, v => .cons k0 v0 (t.snoc k v)

/-- True exactly on `J_NUMBER` nodes. -/
def JValue.isNumber : JValue → Bool
  | .jnumber _ => true
  | _ => false

/-- True exactly on `J_OBJECT` nodes. -/
def JValue.isObj : JValue → Bool
  | .jobject _ => true
  | _ => false

/-- `p_skip_ws`: skip a run of `isspace` characters. -/
def p_skip_ws : List Char → List Char
  | [] => []
  | c :: r => if c_isspace c then p_skip_ws r else c :: r

/-- Fast path of `parse_string`: scan for the closing quote; `some` returns
the slice content and the rest after the quote; `none` means a backslash or
the end of input was met first, and the slow path takes over. -/
def string_fast_path : List Char → Option (List Char × List Char)
  | [] => none
  | c :: r =>
    if c = '"' then some ([], r)
    else if c = '\\' then none
    else
      match string_fast_path r with
      | some (s, rest) => some (c :: s, rest)
      | none => none

/-- Prepend one decoded byte to a slow-path result. -/
def slow_push (ch : Char) : Except PErr (List Char × List Char) → Except PErr (List Char × List Char)
  | .ok (s, rest) => .ok (ch :: s, rest)
  | .error err => .error err

mutual

/-- Slow path of `parse_string`: decode escapes until the closing quote.
Mirrors the C loop plus the final `p_expect('"')`. -/
def string_slow_path : List Char → Except PErr (List Char × List Char)
  | [] => .error (.syn "unexpected character")
  | c :: r =>
    if c = '"' then .ok ([], r)
    else if c = '\\' then string_slow_escape r
    else slow_push c (string_slow_path r)

/-- The `switch` on the character after a backslash. -/
def string_slow_escape : List Char → Except PErr (List Char × List Char)
  | [] => .error (.syn "bad escape")
  | e :: r2 =>
    if e = '"' then slow_push '"' (string_slow_path r2)
    else if e = '\\' then slow_push '\\' (string_slow_path r2)
    else if e = '/' then slow_push '/' (string_slow_path r2)
    else if e = 'b' then slow_push (Char.ofNat 8) (string_slow_path r2)
    else if e = 'f' then slow_push (Char.ofNat 12) (string_slow_path r2)
    else if e = 'n' then slow_push '\n' (string_slow_path r2)
    else if e = 'r' then slow_push '\r' (string_slow_path r2)
    else if e = 't' then slow_push '\t' (string_slow_path r2)
    else if e = 'u' then string_slow_unicode r2
    else .error (.syn "unknown escape")

/-- The `case 'u'` arm: four hex digits; a code point at most 0x7F is
emitted as itself, anything higher as the placeholder byte. -/
def string_slow_unicode : List Char → Except PErr (List Char × List Char)
  | d1 :: d2 :: d3 :: d4 :: r3 =>
    match hexval d1 with
    | none => .error (.syn "bad u escape")
    | some h1 =>
      match hexval d2 with
      | none => .error (.syn "bad u escape")
      | some h2 =>
        match hexval d3 with
        | none => .error (.syn "bad u escape")
        | some h3 =>
          match hexval d4 with
          | none => .error (.syn "bad u escape")
          | some h4 =>
            let v := ((((h1 <<< 4) ||| h2) <<< 4) ||| h3) <<< 4 ||| h4
            let ch := if v ≤ 0x7F then Char.ofNat v else '?'
            slow_push ch (string_slow_path r3)
  | _ => .error (.syn "bad u escape")

end

/-- `parse_string`: expects the opening quote, tries the fast path, and on
a backslash (or missing closing quote) restarts down the slow path. -/
def parse_string : List Char → Except PErr (String × List Char)
  | [] => .error (.syn "unexpected character")
  | c :: r =>
    if c = '"' then
      match string_fast_path r with
      | some (s, rest) => .ok (⟨s⟩, rest)
      | none =>
        match string_slow_path r with
        | .ok (s, rest) => .ok (⟨s⟩, rest)
        | .error err => .error err
    else .error (.syn "unexpected character")

/-- Take the maximal leading digit run. -/
def take_digits : List Char → List Char × List Char
  | [] => ([], [])
  | c :: r =>
    if c_isdigit c then
      let (ds, rest) := take_digits r
      (c :: ds, rest)
    else ([], c :: r)

/-- Fraction part of `parse_number` (after the integer part). -/
def number_frac : List Char → Except PErr (List Char × List Char)
  | [] => .ok ([], [])
  | c :: r =>
    if c = '.' then
      match r with
      | [] => .error (.syn "bad number fraction")
      | c2 :: r2 =>
        if c_isdigit c2 then
          match take_digits (c2 :: r2) with
          | (ds, rest) => .ok ('.' :: ds, rest)
        else .error (.syn "bad number fraction")
    else .ok ([], c :: r)

/-- Exponent part of `parse_number` (after the fraction part). -/
def number_exp : List Char → Except PErr (List Char × List Char)
  | c :: r =>
    if c = 'e' || c = 'E' then
      match r with
      | s :: r2 =>
        if s = '+' || s = '-' then
          match r2 with
          | d :: r3 =>
            if c_isdigit d then
              let (ds, rest) := take_digits (d :: r3)
              .ok (c :: s :: ds, rest)
            else .error (.syn "bad number exponent")
          | [] => .error (.syn "bad number exponent")
        else if c_isdigit s then
          let (ds, rest) := take_digits (s :: r2)
          .ok (c :: ds, rest)
        else .error (.syn "bad number exponent")
      | [] => .error (.syn "bad number exponent")
    else .ok ([], c :: r)
  | [] => .ok ([], [])

/-- One-step unfolding of `number_frac` at a cons cell. -/
theorem number_frac_cons (c : Char) (r : List Char) :
    number_frac (c :: r) =
      (if c = '.' then
        match r with
        | [] => .error (.syn "bad number fraction")
        | c2 :: r2 =>
          if c_isdigit c2 then
            match take_digits (c2 :: r2) with
            | (ds, rest) => .ok ('.' :: ds, rest)
          else .error (.syn "bad number fraction")
      else .ok ([], c :: r)) := by
  rw [number_frac.eq_def]

/-- `number_frac` on empty input. -/
theorem number_frac_nil : number_frac [] = .ok ([], []) := by
  rw [number_frac.eq_def]

/-- One-step unfolding of `number_exp` at a cons cell. -/
theorem number_exp_cons (c : Char) (r : List Char) :
    number_exp (c :: r) =
      (if c = 'e' || c = 'E' then
        match r with
        | s :: r2 =>
          if s = '+' || s = '-' then
            match r2 with
            | d :: r3 =>
              if c_isdigit d then
                let (ds, rest) := take_digits (d :: r3)
                .ok (c :: s :: ds, rest)
              else .error (.syn "bad number exponent")
            | [] => .error (.syn "bad number exponent")
          else if c_isdigit s then
            let (ds, rest) := take_digits (s :: r2)
            .ok (c :: ds, rest)
          else .error (.syn "bad number exponent")
        | [] => .error (.syn "bad number exponent")
      else .ok ([], c :: r)) := by
  rw [number_exp.eq_def]

/-- `number_exp` on empty input. -/
theorem number_exp_nil : number_exp [] = .ok ([], []) := by
  rw [number_exp.eq_def]

/-- Body of `parse_number` after the optional leading minus: the single
`0` rule for the integer part, then fraction and exponent. -/
def parse_number_body (sign : List Char) (l1 : List Char) : Except PErr (String × List Char) :=
  match l1 with
  | [] => .error (.syn "bad number")
  | c :: r =>
    if c_isdigit c then
      match (if c = '0' then (['0'], r) else take_digits (c :: r)) with
      | (ip, l2) =>
        match number_frac l2 with
        | .error e => .error e
        | .ok (fp, l3) =>
          match number_exp l3 with
          | .error e => .error e
          | .ok (ep, l4) => .ok (⟨sign ++ ip ++ fp ++ ep⟩, l4)
    else .error (.syn "bad number")

/-- `parse_number`: validates `-?int(.frac)?([eE][+-]?digits)?` and returns
the verbatim consumed text (the C code returns a slice of the input). -/
def parse_number (l : List Char) : Except PErr (String × List Char) :=
  match l with
  | [] => parse_number_body [] []
  | c :: l1 => if c = '-' then parse_number_body ['-'] l1 else parse_number_body [] (c :: l1)

/-- One-step unfolding of `parse_number` at a cons cell. -/
theorem parse_number_cons (c : Char) (l1 : List Char) :
    parse_number (c :: l1) =
      (if c = '-' then parse_number_body ['-'] l1
       else parse_number_body [] (c :: l1)) := by
  rw [parse_number.eq_def]

/-- `p_match_kw`: match a keyword byte-for-byte, returning the rest. -/
def p_match_kw : List Char → List Char → Option (List Char)
  | [], l => some l
  | _ :: _, [] => none
  | k :: ks, c :: cs => if c = k then p_match_kw ks cs else none

mutual

/-- `parse_value` (fuelled).  The bodies of `parse_object` and
`parse_array` are inlined at their single call sites: the brace or bracket
is consumed (`p_expect`), whitespace skipped, the empty case handled, and
otherwise the member/item loop entered.  Every `p_peek` comparison is an
`if` on the head character. -/
def parse_value : Nat → List Char → Except PErr (JValue × List Char)
  | 0, _ => .error .fuel
  | f + 1, l =>
    match p_skip_ws l with
    | [] => .error (.syn "unexpected EOF")
    | c :: r =>
      if c = '"' then
        match parse_string (c :: r) with
        | .error e => .error e
        | .ok (s, rest) => .ok (.jstring s, rest)
      else if c = '{' then
        match p_skip_ws r with
        | [] => parse_members f JMembers.nil []
        | d :: rr =>
          if d = '}' then .ok (JValue.jobject JMembers.nil, rr)
          else parse_members f JMembers.nil (d :: rr)
      else if c = '[' then
        match p_skip_ws r with
        | [] => parse_items f JValueList.nil []
        | d :: rr =>
          if d = ']' then .ok (JValue.jarray JValueList.nil, rr)
          else parse_items f JValueList.nil (d :: rr)
      else if c = 't' then
        match p_match_kw "true".data (c :: r) with
        | some rest => .ok (.jbool true, rest)
        | none => .error (.syn "bad token")
      else if c = 'f' then
        match p_match_kw "false".data (c :: r) with
        | some rest => .ok (.jbool false, rest)
        | none => .error (.syn "bad token")
      else if c = 'n' then
        match p_match_kw "null".data (c :: r) with
        | some rest => .ok (.jnull, rest)
        | none => .error (.syn "bad token")
      else if c = '-' || c_isdigit c then
        match parse_number (c :: r) with
        | .error e => .error e
        | .ok (n, rest) => .ok (.jnumber n, rest)
      else .error (.syn "unknown value")

/-- Member loop of `parse_object`: key string, colon, value, then comma to
continue or closing brace to stop. -/
def parse_members : Nat → JMembers → List Char → Except PErr (JValue × List Char)
  | 0, _, _ => .error .fuel
  | f + 1, acc, l =>
    match p_skip_ws l with
    | [] => .error (.syn "object key must be string")
    | d :: r =>
      if d = '"' then
        match parse_string (d :: r) with
        | .error e => .error e
        | .ok (k, rest) =>
          match p_skip_ws rest with
          | [] => .error (.syn "unexpected character")
          | d2 :: r2 =>
            if d2 = ':' then
              match parse_value f (p_skip_ws r2) with
              | .error e => .error e
              | .ok (v, r3) =>
                match p_skip_ws r3 with
                | [] => .error (.syn "bad object syntax")
                | d3 :: r4 =>
                  if d3 = ',' then parse_members f (acc.snoc k v) r4
                  else if d3 = '}' then .ok (JValue.jobject (acc.snoc k v), r4)
                  else .error (.syn "bad object syntax")
            else .error (.syn "unexpected character")
      else .error (.syn "object key must be string")

/-- Item loop of `parse_array`: value, then comma to continue or closing
bracket to stop. -/
def parse_items : Nat → JValueList → List Char → Except PErr (JValue × List Char)
  | 0, _, _ => .error .fuel
  | f + 1, acc, l =>
    match parse_value f (p_skip_ws l) with
    | .error e => .error e
    | .ok (v, r) =>
      match p_skip_ws r with
      | [] => .error (.syn "bad array syntax")
      | d :: r2 =>
        if d = ',' then parse_items f (acc.snoc v) r2
        else if d = ']' then .ok (JValue.jarray (acc.snoc v), r2)
        else .error (.syn "bad array syntax")

end

/-- Check that every top-level array element is an object, building the
record list (`objlist_push` loop of `parse_top`). -/
def top_records : JValueList → Except PErr (List JValue)
  | .nil => .ok []
  | .cons v tl =>
    match v with
    | .jobject ms =>
      match top_records tl with
      | .ok l => .ok (.jobject ms :: l)
      | .error e => .error e
    | _ => .error (.syn "top array must contain objects")

/-- Fuel supplied to the parser: every unit of nesting or loop iteration
consumes input, and `2*n + 2` over-approximates the number of mutual calls
any parse of an `n`-byte input can make. -/
def top_fuel (l : List Char) : Nat := 2 * l.length + 2

/-- `parse_top` on the raw byte list. -/
def parse_top_list (input : List Char) : Except PErr (List JValue) :=
  match parse_value (top_fuel input) (p_skip_ws input) with
  | .error e => .error e
  | .ok (top, _) =>
    match top with
    | .jobject ms => .ok [.jobject ms]
    | .jarray items => top_records items
    | _ => .error (.syn "top-level JSON must be object or array of objects")

/-- `parse_top` on a string input. -/
def parse_top (s : String) : Except PErr (List JValue) :=
  parse_top_list s.data

/-- True when parsing fails with a syntax error (a `die` call). -/
def parse_fails (s : String) : Bool :=
  match parse_top s with
  | .error (.syn _) => true
  | _ => false

example : parse_top "\x7b\x7d" = .ok [.jobject .nil] := rfl
example : parse_top "\x7b\"a\":1\x7d" =
    .ok [.jobject (.cons "a" (.jnumber "1") .nil)] := rfl
example : parse_fails "\x7b" = true := by decide
example : parse_fails "[1,]" = true := by decide
example : parse_fails "" = true := by decide
example : parse_top "[\x7b\"a\":1\x7d,\x7b\"b\":true\x7d]" =
    .ok [.jobject (.cons "a" (.jnumber "1") .nil),
         .jobject (.cons "b" (.jbool true) .nil)] := rfl

/-- `slice_primitive`: string form of a primitive leaf; the `[complex]`
default mirrors the C `default:` arm (never reached by `flatten_value`). -/
def slice_primitive : JValue → String
  | .jnull => "null"
  | .jbool b => if b then "true" else "false"
  | .jnumber s => s
  | .jstring s => s
  | _ => "[complex]"

/-- `array_is_all_primitives`. -/
def array_is_all_primitives : JValueList → Bool
  | .nil => true
  | .cons v tl =>
    (match v with
     | .jnull => true
     | .jbool _ => true
     | .jnumber _ => true
     | .jstring _ => true
     | _ => false) && array_is_all_primitives tl

/-- Loop body of `join_array_primitives`: the flag tracks `i > 0`. -/
def join_loop : Bool → JValueList → String
  | _, .nil => ""
  | first, .cons v tl =>
    (if first then "" else ";") ++ slice_primitive v ++ join_loop false tl

/-- `join_array_primitives`: `;`-join of the primitive string forms. -/
def join_array_primitives (items : JValueList) : String :=
  join_loop true items

/-- `json_print_value`: one element of the compact array serialization. -/
def json_print_value : JValue → String
  | .jnull => "null"
  | .jbool b => if b then "true" else "false"
  | .jnumber s => s
  | .jstring s => "\"" ++ s ++ "\""
  | .jobject _ => "\x7b...\x7d"
  | .jarray _ => "[...]"

/-- Loop body of `json_array_to_string`: the flag tracks `i > 0`. -/
def json_items_loop : Bool → JValueList → String
  | _, .nil => ""
  | first, .cons v tl =>
    (if first then "" else ",") ++ json_print_value v ++ json_items_loop false tl

/-- `json_array_to_string`. -/
def json_array_to_string (items : JValueList) : String :=
  "[" ++ json_items_loop true items ++ "]"

/-- `make_key`: dot-join the key onto the running dotted path. -/
def make_key (pfx k : String) : String :=
  if pfx.length = 0 then k else pfx ++ "." ++ k

mutual

/-- `flatten_value`: emit KV pairs for one value under a dotted key.
The out list is the accumulator the C code pushes into (`kv_push`). -/
def flatten_value : JValue → String → List (String × String) → List (String × String)
  | .jobject ms, pfx, out => flatten_object ms pfx out
  | .jarray items, pfx, out =>
    if array_is_all_primitives items then out ++ [(pfx, join_array_primitives items)]
    else out ++ [(pfx, json_array_to_string items)]
  | v, pfx, out => out ++ [(pfx, slice_primitive v)]

/-- `flatten_object`: flatten each member under `make_key pfx k`. -/
def flatten_object : JMembers → String → List (String × String) → List (String × String)
  | .nil, _, out => out
  | .cons k v tl, pfx, out => flatten_object tl pfx (flatten_value v (make_key pfx k) out)

end

/-- `keyset_contains`: linear scan by content equality (`slice_eq`). -/
def keyset_contains (s : List String) (k : String) : Bool :=
  match s with
  | [] => false
  | x :: tl => if x = k then true else keyset_contains tl k

/-- `keyset_add`: append the key if it is not already present. -/
def keyset_add (s : List String) (k : String) : List String :=
  if keyset_contains s k then s else s ++ [k]

/-- `kv_get`: first value bound to the key, or the empty string. -/
def kv_get (l : List (String × String)) (k : String) : String :=
  match l with
  | [] => ""
  | (k0, v) :: tl => if k0 = k then v else kv_get tl k

/-- KV list of one record, as both passes of `main` compute it
(`flatten_object(objs[i], slice_make("",0), &kv, ...)`); `parse_top`
guarantees every record is an object. -/
def record_kvs : JValue → List (String × String)
  | .jobject ms => flatten_object ms "" []
  | _ => []

/-- Pass 1 of `main`: fold every record's flattened keys into the key set. -/
def collect_headers (records : List JValue) : List String :=
  records.foldl (fun hs r => ((record_kvs r).map Prod.fst).foldl keyset_add hs) []

/-- Pass 2 of `main`: one row per record, one cell per header via `kv_get`. -/
def emit_rows (records : List JValue) (headers : List String) : List (List String) :=
  records.map (fun r => headers.map (fun h => kv_get (record_kvs r) h))

/-- Header row plus data rows for a record list. -/
def csv_table (records : List JValue) : List String × List (List String) :=
  (collect_headers records, emit_rows records (collect_headers records))

/-- Whole pipeline: parse, then build the table; `none` on a parse error
(the process dies before emitting any row). -/
def run_pipeline (s : String) : Option (List String × List (List String)) :=
  match parse_top s with
  | .ok recs => some (csv_table recs)
  | .error _ => none

/-- True on the node kinds §4.3 calls primitive (Null/Bool/Number/String). -/
def JValue.isPrimitive : JValue → Bool
  | .jnull => true
  | .jbool _ => true
  | .jnumber _ => true
  | .jstring _ => true
  | _ => false

/-- Reference form (§4.3 and C1): the primitive string forms
null -> "null", booleans -> "true"/"false", numbers -> original text,
strings -> decoded content. -/
def spec_primitive_form : JValue → String
  | .jnull => "null"
  | .jbool true => "true"
  | .jbool false => "false"
  | .jnumber s => s
  | .jstring s => s
  | _ => ""

/-- Reference form (§4.3): all array elements are primitive. -/
def spec_all_primitive : JValueList → Bool
  | .nil => true
  | .cons v tl => v.isPrimitive && spec_all_primitive tl

/-- Reference form (§4.3): join the elements' primitive string forms
with `;`. -/
def spec_join : JValueList → String
  | .nil => ""
  | .cons v .nil => spec_primitive_form v
  | .cons v tl => spec_primitive_form v ++ ";" ++ spec_join tl

/-- Reference form (§4.3): one element of the compact JSON-like
serialization, nested objects as the placeholder and nested arrays as
`[...]`. -/
def spec_render_element : JValue → String
  | .jobject _ => "\x7b...\x7d"
  | .jarray _ => "[...]"
  | .jstring s => "\"" ++ s ++ "\""
  | v => spec_primitive_form v

/-- Reference form (§4.3): compact serialization of the entire array. -/
def spec_serialize_array_items : JValueList → String
  | .nil => ""
  | .cons v .nil => spec_render_element v
  | .cons v tl => spec_render_element v ++ "," ++ spec_serialize_array_items tl

/-- Reference form (§4.3): the serialized array with its brackets. -/
def spec_serialize_array (items : JValueList) : String :=
  "[" ++ spec_serialize_array_items items ++ "]"

/-- Reference form (§4.3): `prefix.key`, dot-joined, or the key alone when
the running path is empty. -/
def spec_dot_join (pfx k : String) : String :=
  if pfx = "" then k else pfx ++ "." ++ k

/-- Recursive reference definition of §4.3: for each member, a nested
object recurses under the dot-joined key, a primitive array binds the
`;`-join, any other array binds the compact serialization, and a primitive
leaf binds its string form. -/
def spec_flatten : JMembers → String → List (String × String)
  | .nil, _ => []
  | .cons k v tl, pfx =>
    (match v with
     | .jobject ms => spec_flatten ms (spec_dot_join pfx k)
     | .jarray items =>
       if spec_all_primitive items then [(spec_dot_join pfx k, spec_join items)]
       else [(spec_dot_join pfx k, spec_serialize_array items)]
     | leaf => [(spec_dot_join pfx k, spec_primitive_form leaf)])
    ++ spec_flatten tl pfx

/-- First-seen-order deduplication, the §4.4/§5 ordering contract. -/
def first_seen_dedup : List String → List String
  | [] => []
  | k :: tl => k :: first_seen_dedup (tl.filter (fun x => x ≠ k))
termination_by l => l.length
decreasing_by
  simp only [List.length_cons]
  exact Nat.lt_succ_of_le (List.length_filter_le _ _)

example : run_pipeline "\x7b\"a\":\x7b\"b\":1,\"c\":2\x7d\x7d" =
    some (["a.b", "a.c"], [["1", "2"]]) := rfl
example : run_pipeline "\x7b\"a\":[1,2,3]\x7d" = some (["a"], [["1;2;3"]]) := rfl
example : run_pipeline "\x7b\"a\":[1,\x7b\"x\":1\x7d]\x7d" =
    some (["a"], [["[1,\x7b...\x7d]"]]) := rfl
example : run_pipeline "[\x7b\"a\":1\x7d,\x7b\"b\":2\x7d]" =
    some (["a", "b"], [["1", ""], ["", "2"]]) := rfl

/-- A string has length 0 exactly when it is empty. -/
theorem string_length_eq_zero (s : String) : s.length = 0 ↔ s = "" := by
  cases s with
  | mk l => cases l <;> simp [String.length, String.ext_iff]

/-- `make_key` computes the §4.3 dot-join. -/
theorem make_key_eq_spec (pfx k : String) : make_key pfx k = spec_dot_join pfx k := by
  simp [make_key, spec_dot_join, string_length_eq_zero]

/-- Tail-only induction principle for `JValueList` (the mutual recursor
has several motives, so this single-motive one is derived via `sizeOf`). -/
@[induction_eliminator]
theorem JValueList.ind {P : JValueList → Prop} (h0 : P .nil)
    (h1 : ∀ v tl, P tl → P (.cons v tl)) (l : JValueList) : P l := by
  have key : ∀ (n : Nat) (l : JValueList), sizeOf l ≤ n → P l := by
    intro n
    induction n with
    | zero =>
      intro l hl
      cases l with
      | nil => exact h0
      | cons v tl => simp only [JValueList.cons.sizeOf_spec] at hl; omega
    | succ n ih =>
      intro l hl
      cases l with
      | nil => exact h0
      | cons v tl =>
        refine h1 v tl (ih tl ?_)
        simp only [JValueList.cons.sizeOf_spec] at hl
        omega
  exact key (sizeOf l) l le_rfl

/-- The source and reference all-primitive tests agree. -/
theorem all_primitives_eq_spec (items : JValueList) :
    array_is_all_primitives items = spec_all_primitive items := by
  induction items with
  | h0 => rfl
  | h1 v tl ih =>
    cases v <;> simp [array_is_all_primitives, spec_all_primitive, JValue.isPrimitive, ih]

/-- On primitive nodes the source string form equals the reference form. -/
theorem slice_primitive_eq_spec (v : JValue) (h : v.isPrimitive = true) :
    slice_primitive v = spec_primitive_form v := by
  cases v with
  | jbool b => cases b <;> rfl
  | jnull => rfl
  | jnumber s => rfl
  | jstring s => rfl
  | jarray items => simp [JValue.isPrimitive] at h
  | jobject ms => simp [JValue.isPrimitive] at h

/-- Tail form of the reference `;`-join, used to relate the C loop flag. -/
def spec_join_tail : JValueList → String
  | .nil => ""
  | .cons v tl => ";" ++ spec_join (.cons v tl)

/-- One-step unfolding of the `;`-join loop. -/
theorem join_loop_cons (b : Bool) (v : JValue) (tl : JValueList) :
    join_loop b (.cons v tl) =
      (if b then "" else ";") ++ slice_primitive v ++ join_loop false tl := rfl

/-- The `i > 0` flag loop computes the reference `;`-join. -/
theorem join_loop_eq_spec (items : JValueList) (h : spec_all_primitive items = true) :
    join_loop true items = spec_join items ∧
    join_loop false items = spec_join_tail items := by
  induction items with
  | h0 => exact ⟨rfl, rfl⟩
  | h1 v tl ih =>
    simp only [spec_all_primitive, Bool.and_eq_true] at h
    obtain ⟨hv, htl⟩ := h
    obtain ⟨ih1, ih2⟩ := ih htl
    have hsp := slice_primitive_eq_spec v hv
    have hcore : slice_primitive v ++ join_loop false tl = spec_join (.cons v tl) := by
      rw [hsp, ih2]
      cases tl with
      | nil => simp [spec_join, spec_join_tail]
      | cons w tl2 => simp [spec_join, spec_join_tail, String.append_assoc]
    constructor
    · rw [join_loop_cons, if_pos rfl, String.append_assoc]
      simpa using hcore
    · rw [join_loop_cons]
      simp only [Bool.false_eq_true, if_neg, String.append_assoc]
      rw [hcore]
      rfl

/-- Source and reference element rendering agree on every node. -/
theorem json_print_value_eq_spec (v : JValue) :
    json_print_value v = spec_render_element v := by
  cases v with
  | jbool b => cases b <;> rfl
  | jnull => rfl
  | jnumber s => rfl
  | jstring s => rfl
  | jarray items => rfl
  | jobject ms => rfl

/-- Tail form of the reference `,`-join. -/
def spec_serialize_tail : JValueList → String
  | .nil => ""
  | .cons v tl => "," ++ spec_serialize_array_items (.cons v tl)

/-- One-step unfolding of the `,`-join loop. -/
theorem json_items_loop_cons (b : Bool) (v : JValue) (tl : JValueList) :
    json_items_loop b (.cons v tl) =
      (if b then "" else ",") ++ json_print_value v ++ json_items_loop false tl := rfl

/-- The `i > 0` flag loop computes the reference array serialization. -/
theorem json_items_loop_eq_spec (items : JValueList) :
    json_items_loop true items = spec_serialize_array_items items ∧
    json_items_loop false items = spec_serialize_tail items := by
  induction items with
  | h0 => exact ⟨rfl, rfl⟩
  | h1 v tl ih =>
    obtain ⟨ih1, ih2⟩ := ih
    have hsp := json_print_value_eq_spec v
    have hcore : json_print_value v ++ json_items_loop false tl =
        spec_serialize_array_items (.cons v tl) := by
      rw [hsp, ih2]
      cases tl with
      | nil => simp [spec_serialize_array_items, spec_serialize_tail]
      | cons w tl2 => simp [spec_serialize_array_items, spec_serialize_tail, String.append_assoc]
    constructor
    · rw [json_items_loop_cons, if_pos rfl, String.append_assoc]
      simpa using hcore
    · rw [json_items_loop_cons]
      simp only [Bool.false_eq_true, if_neg, String.append_assoc]
      rw [hcore]
      rfl

/-- `json_array_to_string` equals the reference serialization. -/
theorem json_array_to_string_eq_spec (items : JValueList) :
    json_array_to_string items = spec_serialize_array items := by
  simp [json_array_to_string, spec_serialize_array, (json_items_loop_eq_spec items).1]

/-- Unfolding of `spec_flatten` at a nested-object member. -/
theorem spec_flatten_cons_obj (k : String) (ms2 tl : JMembers) (pfx : String) :
    spec_flatten (.cons k (.jobject ms2) tl) pfx =
      spec_flatten ms2 (spec_dot_join pfx k) ++ spec_flatten tl pfx := by
  simp [spec_flatten]

/-- Unfolding of `spec_flatten` at an array member. -/
theorem spec_flatten_cons_arr (k : String) (items : JValueList) (tl : JMembers) (pfx : String) :
    spec_flatten (.cons k (.jarray items) tl) pfx =
      (if spec_all_primitive items then [(spec_dot_join pfx k, spec_join items)]
       else [(spec_dot_join pfx k, spec_serialize_array items)]) ++ spec_flatten tl pfx := by
  simp [spec_flatten]

/-- Unfolding of `spec_flatten` at a primitive member. -/
theorem spec_flatten_cons_prim (k : String) (v : JValue) (tl : JMembers) (pfx : String)
    (h : v.isPrimitive = true) :
    spec_flatten (.cons k v tl) pfx =
      (spec_dot_join pfx k, spec_primitive_form v) :: spec_flatten tl pfx := by
  cases v <;> simp_all [JValue.isPrimitive, spec_flatten]

/-- The flattener equals the §4.3 reference definition, relative to any
accumulator (`kv_push` appends at the end). -/
theorem flatten_object_eq_spec_aux :
    ∀ (n : Nat) (ms : JMembers), sizeOf ms ≤ n → ∀ (pfx : String) (out : List (String × String)),
      flatten_object ms pfx out = out ++ spec_flatten ms pfx := by
  intro n
  induction n with
  | zero =>
    intro ms h
    cases ms with
    | nil => intro pfx out; simp [flatten_object, spec_flatten]
    | cons k v tl => simp only [JMembers.cons.sizeOf_spec] at h; omega
  | succ n ih =>
    intro ms hms pfx out
    cases ms with
    | nil => simp [flatten_object, spec_flatten]
    | cons k v tl =>
      simp only [JMembers.cons.sizeOf_spec] at hms
      have htl : sizeOf tl ≤ n := by omega
      cases v with
      | jobject ms2 =>
        have hms2 : sizeOf ms2 ≤ n := by
          simp only [JValue.jobject.sizeOf_spec] at hms; omega
        simp only [flatten_object, flatten_value]
        rw [ih ms2 hms2, ih tl htl, spec_flatten_cons_obj]
        simp [make_key_eq_spec]
      | jarray items =>
        simp only [flatten_object, flatten_value]
        rw [all_primitives_eq_spec, ih tl htl, spec_flatten_cons_arr]
        by_cases hp : spec_all_primitive items = true
        · simp [make_key_eq_spec, hp, join_array_primitives,
            (join_loop_eq_spec items hp).1]
        · simp [make_key_eq_spec, hp, json_array_to_string_eq_spec]
      | jnull =>
        simp only [flatten_object, flatten_value]
        rw [ih tl htl, spec_flatten_cons_prim _ _ _ _ (by rfl)]
        simp [make_key_eq_spec, slice_primitive, spec_primitive_form]
      | jbool b =>
        simp only [flatten_object, flatten_value]
        rw [ih tl htl, spec_flatten_cons_prim _ _ _ _ (by rfl)]
        cases b <;> simp [make_key_eq_spec, slice_primitive, spec_primitive_form]
      | jnumber s =>
        simp only [flatten_object, flatten_value]
        rw [ih tl htl, spec_flatten_cons_prim _ _ _ _ (by rfl)]
        simp [make_key_eq_spec, slice_primitive, spec_primitive_form]
      | jstring s =>
        simp only [flatten_object, flatten_value]
        rw [ih tl htl, spec_flatten_cons_prim _ _ _ _ (by rfl)]
        simp [make_key_eq_spec, slice_primitive, spec_primitive_form]

/-- `keyset_contains` decides membership. -/
theorem keyset_contains_iff (s : List String) (k : String) :
    keyset_contains s k = true ↔ k ∈ s := by
  induction s with
  | nil => simp [keyset_contains]
  | cons x tl ih =>
    by_cases h : x = k
    · subst h; simp [keyset_contains]
    · simp [keyset_contains, h, ih, Ne.symm h]

/-- Scanning an appended singleton tests the old set, then the new key. -/
theorem keyset_contains_append_single (a : List String) (k x : String) :
    keyset_contains (a ++ [k]) x = (keyset_contains a x || decide (k = x)) := by
  induction a with
  | nil => simp [keyset_contains]
  | cons y tl ih =>
    by_cases h : y = x
    · subst h; simp [keyset_contains]
    · simp [keyset_contains, h, ih]

/-- The pass-1 fold of `keyset_add` computes the first-seen-order
deduplication, relative to an arbitrary already-collected set. -/
theorem keyset_foldl_eq_dedup :
    ∀ (ks acc : List String),
      ks.foldl keyset_add acc =
        acc ++ first_seen_dedup (ks.filter (fun x => !keyset_contains acc x)) := by
  intro ks
  induction ks with
  | nil => intro acc; simp [first_seen_dedup]
  | cons k tl ih =>
    intro acc
    by_cases hc : keyset_contains acc k = true
    · have hadd : keyset_add acc k = acc := by simp [keyset_add, hc]
      simp only [List.foldl_cons, hadd, ih acc, List.filter_cons, hc]
      simp
    · have hadd : keyset_add acc k = acc ++ [k] := by simp [keyset_add, hc]
      have hpred : (fun x => !keyset_contains (acc ++ [k]) x) =
          (fun x => (!keyset_contains acc x) && decide (x ≠ k)) := by
        funext x
        rw [keyset_contains_append_single]
        by_cases hx : x = k
        · subst hx; simp
        · simp [hx, Ne.symm hx]
      rw [List.foldl_cons, hadd, ih (acc ++ [k]), hpred]
      have hff : (List.filter (fun x => (!keyset_contains acc x) && decide (x ≠ k)) tl) =
          (tl.filter (fun x => !keyset_contains acc x)).filter (fun x => decide (x ≠ k)) := by
        rw [List.filter_filter]
        congr 1
        funext a
        rw [Bool.and_comm]
      rw [hff]
      have hkeep : List.filter (fun x => !keyset_contains acc x) (k :: tl) =
          k :: tl.filter (fun x => !keyset_contains acc x) := by
        simp [List.filter_cons, hc]
      rw [hkeep]
      have hded : first_seen_dedup (k :: tl.filter (fun x => !keyset_contains acc x)) =
          k :: first_seen_dedup
            ((tl.filter (fun x => !keyset_contains acc x)).filter (fun x => decide (x ≠ k))) := by
        simp [first_seen_dedup]
      rw [hded]
      simp

/-- `first_seen_dedup` has no duplicates and preserves membership. -/
theorem first_seen_dedup_nodup_mem :
    ∀ (n : Nat) (l : List String), l.length ≤ n →
      (first_seen_dedup l).Nodup ∧ ∀ x, x ∈ first_seen_dedup l ↔ x ∈ l := by
  intro n
  induction n with
  | zero =>
    intro l hl
    have : l = [] := List.length_eq_zero.mp (Nat.le_zero.mp hl)
    subst this
    simp [first_seen_dedup]
  | succ n ih =>
    intro l hl
    cases l with
    | nil => simp [first_seen_dedup]
    | cons k tl =>
      have hflen : (tl.filter (fun x => decide (x ≠ k))).length ≤ n := by
        have h1 := List.length_filter_le (fun x => decide (x ≠ k)) tl
        simp only [List.length_cons] at hl
        omega
      obtain ⟨hnd, hmem⟩ := ih (tl.filter (fun x => decide (x ≠ k))) hflen
      have hunf : first_seen_dedup (k :: tl) =
          k :: first_seen_dedup (tl.filter (fun x => decide (x ≠ k))) := by
        simp [first_seen_dedup]
      constructor
      · rw [hunf]
        refine List.nodup_cons.mpr ⟨?_, hnd⟩
        intro hk
        have := (hmem k).mp hk
        simp at this
      · intro x
        rw [hunf]
        by_cases hx : x = k
        · subst hx; simp
        · simp only [List.mem_cons, hmem x, List.mem_filter]
          simp [hx]

/-- `kv_get` returns the first binding of the key, or `""` when none. -/
theorem kv_get_eq_find (l : List (String × String)) (k : String) :
    kv_get l k = ((l.find? (fun p => decide (p.1 = k))).map Prod.snd).getD "" := by
  induction l with
  | nil => rfl
  | cons p tl ih =>
    obtain ⟨k0, v⟩ := p
    by_cases h : k0 = k
    · subst h; simp [kv_get, List.find?]
    · simp [kv_get, List.find?, h, ih]

/-- Every record produced by `top_records` is an object. -/
theorem top_records_all_objects :
    ∀ (items : JValueList) (recs : List JValue),
      top_records items = .ok recs → ∀ r ∈ recs, r.isObj = true := by
  intro items
  induction items with
  | h0 =>
    intro recs h r hr
    simp only [top_records, Except.ok.injEq] at h
    subst h
    simp at hr
  | h1 v tl ih =>
    intro recs h r hr
    cases v with
    | jobject ms =>
      simp only [top_records] at h
      cases htl : top_records tl with
      | ok l =>
        rw [htl] at h
        simp only [Except.ok.injEq] at h
        subst h
        rcases List.mem_cons.mp hr with hr1 | hr2
        · subst hr1; rfl
        · exact ih l htl r hr2
      | error e => rw [htl] at h; exact absurd h (by simp)
    | jnull => simp [top_records] at h
    | jbool b => simp [top_records] at h
    | jnumber s => simp [top_records] at h
    | jstring s => simp [top_records] at h
    | jarray its => simp [top_records] at h

/-- The pass-1 fold over an empty key set is the first-seen dedup. -/
theorem keyset_foldl_nil_eq_dedup (ks : List String) :
    ks.foldl keyset_add [] = first_seen_dedup ks := by
  have h := keyset_foldl_eq_dedup ks []
  simpa [keyset_contains] using h

/-- C1: for every JSON object and every running prefix, `flatten_object`
produces exactly the KV list of the §4.3 recursive reference definition
(objects recurse under the dot-joined key, all-primitive arrays bind the
`;`-join, other arrays bind the compact serialization with placeholder
objects, primitive leaves bind their string form); the claim's three
worked examples hold end to end. -/
theorem C1_flatten_matches_spec :
    (∀ (ms : JMembers) (pfx : String), flatten_object ms pfx [] = spec_flatten ms pfx) ∧
    run_pipeline "\x7b\"a\":\x7b\"b\":1,\"c\":2\x7d\x7d" =
      some (["a.b", "a.c"], [["1", "2"]]) ∧
    run_pipeline "\x7b\"a\":[1,2,3]\x7d" = some (["a"], [["1;2;3"]]) ∧
    run_pipeline "\x7b\"a\":[1,\x7b\"x\":1\x7d]\x7d" =
      some (["a"], [["[1,\x7b...\x7d]"]]) := by
  refine ⟨?_, rfl, rfl, rfl⟩
  intro ms pfx
  simpa using flatten_object_eq_spec_aux (sizeOf ms) ms le_rfl pfx []

/-- C2: the header is the first-seen-order deduplication of the flattened
keys across records, `kv_get` yields the first binding or an empty cell
when the key is missing (never an error), row order equals record order,
and the worked example `[{"a":1},{"b":2}]` gives header `a,b` with rows
`1,` and `,2`. -/
theorem C2_header_union_and_rows :
    (∀ ks : List String, ks.foldl keyset_add [] = first_seen_dedup ks) ∧
    (∀ (l : List (String × String)) (k : String),
      kv_get l k = ((l.find? (fun p => decide (p.1 = k))).map Prod.snd).getD "") ∧
    (∀ (records : List JValue) (headers : List String),
      emit_rows records headers =
        records.map (fun r => headers.map (fun h => kv_get (record_kvs r) h))) ∧
    run_pipeline "[\x7b\"a\":1\x7d,\x7b\"b\":2\x7d]" =
      some (["a", "b"], [["1", ""], ["", "2"]]) :=
  ⟨keyset_foldl_nil_eq_dedup, kv_get_eq_find, fun _ _ => rfl, rfl⟩

/-- C3: a successful parse only ever yields object records (so every other
top-level shape dies with a syntax error), and each malformed document the
claim lists is rejected with no output rows. -/
theorem C3_top_level_shape :
    (∀ (s : String) (recs : List JValue),
      parse_top s = .ok recs → ∀ r ∈ recs, r.isObj = true) ∧
    (parse_fails "42" = true ∧ run_pipeline "42" = none) ∧
    (parse_fails "[1,2]" = true ∧ run_pipeline "[1,2]" = none) ∧
    (parse_fails "" = true ∧ run_pipeline "" = none) ∧
    (parse_fails "\x7b" = true ∧ run_pipeline "\x7b" = none) ∧
    (parse_fails "[1,]" = true ∧ run_pipeline "[1,]" = none) ∧
    (parse_fails "\x7b\"a\":\x7d" = true ∧ run_pipeline "\x7b\"a\":\x7d" = none) ∧
    (parse_fails "\x7b\"a\" 1\x7d" = true ∧ run_pipeline "\x7b\"a\" 1\x7d" = none) := by
  refine ⟨?_, ⟨rfl, rfl⟩, ⟨rfl, rfl⟩, ⟨rfl, rfl⟩, ⟨rfl, rfl⟩,
    ⟨rfl, rfl⟩, ⟨rfl, rfl⟩, ⟨rfl, rfl⟩⟩
  intro s recs h r hr
  unfold parse_top parse_top_list at h
  cases hpv : parse_value (top_fuel s.data) (p_skip_ws s.data) with
  | error e => rw [hpv] at h; exact absurd h (by simp)
  | ok res =>
    obtain ⟨top, rest⟩ := res
    rw [hpv] at h
    cases top with
    | jobject ms =>
      simp only [Except.ok.injEq] at h
      subst h
      rcases List.mem_singleton.mp hr with hr1
      subst hr1
      rfl
    | jarray items => exact top_records_all_objects items recs h r hr
    | jnull => exact absurd h (by simp)
    | jbool b => exact absurd h (by simp)
    | jnumber n => exact absurd h (by simp)
    | jstring str => exact absurd h (by simp)

/-- Witness for C3: the universal part applied to a concrete successful
parse. -/
theorem C3_top_level_shape_witness :
    (JValue.jobject (JMembers.cons "a" (JValue.jnumber "1") JMembers.nil)).isObj = true :=
  C3_top_level_shape.1 "\x7b\"a\":1\x7d"
    [JValue.jobject (JMembers.cons "a" (JValue.jnumber "1") JMembers.nil)] rfl
    (JValue.jobject (JMembers.cons "a" (JValue.jnumber "1") JMembers.nil)) (by simp)

/-- C10: when a record binds the same dotted key more than once, `kv_get`
returns the first occurrence's value and later values never surface, the
key set keeps exactly one column per key, and the duplicate-key document
`{"a":1,"a":2}` yields header `a` with the single cell `1`. -/
theorem C10_first_occurrence_wins :
    (∀ (k v : String) (l : List (String × String)), kv_get ((k, v) :: l) k = v) ∧
    (∀ (k0 k v : String) (l : List (String × String)),
      k0 ≠ k → kv_get ((k0, v) :: l) k = kv_get l k) ∧
    (∀ (ks : List String) (k : String), k ∈ ks → (ks.foldl keyset_add []).count k = 1) ∧
    run_pipeline "\x7b\"a\":1,\"a\":2\x7d" = some (["a"], [["1"]]) := by
  refine ⟨?_, ?_, ?_, rfl⟩
  · intro k v l
    simp [kv_get]
  · intro k0 k v l h
    simp [kv_get, h]
  · intro ks k hk
    rw [keyset_foldl_nil_eq_dedup]
    obtain ⟨hnd, hmem⟩ := first_seen_dedup_nodup_mem ks.length ks le_rfl
    exact List.count_eq_one_of_mem hnd ((hmem k).mpr hk)

/-- Witness for C10: its hypotheses discharged at concrete inputs. -/
theorem C10_first_occurrence_wins_witness :
    kv_get [("a", "1"), ("a", "2")] "a" = "1" ∧
    kv_get [("b", "9"), ("a", "1")] "a" = kv_get [("a", "1")] "a" ∧
    (["a", "b", "a"].foldl keyset_add []).count "a" = 1 :=
  ⟨C10_first_occurrence_wins.1 "a" "1" [("a", "2")],
   C10_first_occurrence_wins.2.1 "b" "a" "9" [("a", "1")] (by decide),
   C10_first_occurrence_wins.2.2.1 ["a", "b", "a"] "a" (by decide)⟩

/-- `take_digits` splits its input: taken digits plus rest is the input. -/
theorem take_digits_append :
    ∀ (l ds rest : List Char), take_digits l = (ds, rest) → ds ++ rest = l := by
  intro l
  induction l with
  | nil =>
    intro ds rest h
    simp only [take_digits, Prod.mk.injEq] at h
    obtain ⟨h1, h2⟩ := h
    subst h1; subst h2; rfl
  | cons c r ih =>
    intro ds rest h
    by_cases hd : c_isdigit c = true
    · cases hq : take_digits r with
      | mk ds2 rest2 =>
        simp only [take_digits, hd, if_true, hq, Prod.mk.injEq] at h
        obtain ⟨h1, h2⟩ := h
        subst h1; subst h2
        simpa using ih ds2 rest2 hq
    · simp only [take_digits, hd] at h
      simp only [Bool.false_eq_true, if_false, Prod.mk.injEq] at h
      obtain ⟨h1, h2⟩ := h
      subst h1; subst h2; rfl


/-- `number_frac` splits its input. -/
theorem number_frac_append :
    ∀ (l fp rest : List Char), number_frac l = .ok (fp, rest) → fp ++ rest = l := by
  intro l fp rest h
  cases l with
  | nil =>
    rw [number_frac_nil] at h
    simp only [Except.ok.injEq, Prod.mk.injEq] at h
    obtain ⟨h1, h2⟩ := h
    subst h1; subst h2; rfl
  | cons c r =>
    rw [number_frac_cons] at h
    by_cases hdot : c = '.'
    · rw [if_pos hdot] at h
      cases r with
      | nil => exact absurd h (by simp)
      | cons c2 r2 =>
        simp only [] at h
        by_cases hd : c_isdigit c2 = true
        · rw [if_pos hd] at h
          cases hq : take_digits (c2 :: r2) with
          | mk ds rest2 =>
            rw [hq] at h
            simp only [Except.ok.injEq, Prod.mk.injEq] at h
            obtain ⟨h1, h2⟩ := h
            subst h1; subst h2; subst hdot
            have := take_digits_append (c2 :: r2) ds rest2 hq
            simp [← this]
        · rw [if_neg hd] at h
          exact absurd h (by simp)
    · rw [if_neg hdot] at h
      simp only [Except.ok.injEq, Prod.mk.injEq] at h
      obtain ⟨h1, h2⟩ := h
      subst h1; subst h2; rfl

/-- `number_exp` splits its input. -/
theorem number_exp_append :
    ∀ (l ep rest : List Char), number_exp l = .ok (ep, rest) → ep ++ rest = l := by
  intro l ep rest h
  unfold number_exp at h
  split at h
  · rename_i c r
    split at h
    · split at h
      · rename_i s r2
        split at h
        · split at h
          · rename_i d r3
            split at h
            · cases hq : take_digits (d :: r3) with
              | mk ds rest2 =>
                rw [hq] at h
                simp only [Except.ok.injEq, Prod.mk.injEq] at h
                obtain ⟨h1, h2⟩ := h
                subst h1; subst h2
                have := take_digits_append (d :: r3) ds rest2 hq
                simp [← this]
            · exact absurd h (by simp)
          · exact absurd h (by simp)
        · split at h
          · cases hq : take_digits (s :: r2) with
            | mk ds rest2 =>
              rw [hq] at h
              simp only [Except.ok.injEq, Prod.mk.injEq] at h
              obtain ⟨h1, h2⟩ := h
              subst h1; subst h2
              have := take_digits_append (s :: r2) ds rest2 hq
              simp [← this]
          · exact absurd h (by simp)
      · exact absurd h (by simp)
    · simp only [Except.ok.injEq, Prod.mk.injEq] at h
      obtain ⟨h1, h2⟩ := h
      subst h1; subst h2; rfl
  · simp only [Except.ok.injEq, Prod.mk.injEq] at h
    obtain ⟨h1, h2⟩ := h
    subst h1; subst h2; rfl

/-- `parse_number_body` consumes a verbatim slice of its input. -/
theorem parse_number_body_append :
    ∀ (sign l1 : List Char) (n : String) (r : List Char),
      parse_number_body sign l1 = .ok (n, r) → n.data ++ r = sign ++ l1 := by
  intro sign l1 n r h
  unfold parse_number_body at h
  split at h
  · exact absurd h (by simp)
  · rename_i c r0
    split at h
    · split at h
      rename_i ip l2 h0
      split at h
      · exact absurd h (by simp)
      · rename_i fp l3 hf
        split at h
        · exact absurd h (by simp)
        · rename_i ep l4 hex
          simp only [Except.ok.injEq, Prod.mk.injEq] at h
          obtain ⟨h1, h2⟩ := h
          subst h1; subst h2
          have hfa := number_frac_append l2 fp l3 hf
          have hea := number_exp_append l3 ep l4 hex
          split at h0
          · rename_i hc0
            simp only [Prod.mk.injEq] at h0
            obtain ⟨ha, hb⟩ := h0
            subst ha; subst hb; subst hc0
            simp [← hfa, ← hea]
          · have hqa := take_digits_append (c :: r0) ip l2 h0
            simp [← hqa, ← hfa, ← hea]
    · exact absurd h (by simp)

/-- `parse_number` consumes a verbatim slice of its input. -/
theorem parse_number_verbatim :
    ∀ (l : List Char) (n : String) (r : List Char),
      parse_number l = .ok (n, r) → n.data ++ r = l := by
  intro l n r h
  cases l with
  | nil =>
    rw [parse_number.eq_def] at h
    simpa using parse_number_body_append [] [] n r h
  | cons c l1 =>
    rw [parse_number_cons] at h
    by_cases hm : c = '-'
    · rw [if_pos hm] at h
      subst hm
      simpa using parse_number_body_append ['-'] l1 n r h
    · rw [if_neg hm] at h
      simpa using parse_number_body_append [] (c :: l1) n r h

/-- `c_isspace` decides membership in the six-character C `isspace` set. -/
theorem c_isspace_mem (c : Char) :
    c_isspace c =
      decide (c ∈ [' ', '\t', '\n', Char.ofNat 11, Char.ofNat 12, '\r']) := by
  simp [c_isspace, List.mem_cons, Bool.or_assoc]

/-- C4: each two-character escape decodes to its single byte, a string
containing backslash-n flattens to a single newline byte end to end, and a
4-hex-digit unicode escape yields the code point itself when at most 0x7F
and the placeholder byte otherwise. -/
theorem C4_escape_decoding :
    parse_string "\"\\\"\"".data = .ok ("\"", []) ∧
    parse_string "\"\\\\\"".data = .ok ("\\", []) ∧
    parse_string "\"\\/\"".data = .ok ("/", []) ∧
    parse_string "\"\\b\"".data = .ok ("\x08", []) ∧
    parse_string "\"\\f\"".data = .ok ("\x0C", []) ∧
    parse_string "\"\\n\"".data = .ok ("\n", []) ∧
    parse_string "\"\\r\"".data = .ok ("\x0D", []) ∧
    parse_string "\"\\t\"".data = .ok ("\t", []) ∧
    run_pipeline "\x7b\"a\":\"x\\ny\"\x7d" = some (["a"], [["x\ny"]]) ∧
    (∀ (d1 d2 d3 d4 : Char) (h1 h2 h3 h4 : Nat),
      hexval d1 = some h1 → hexval d2 = some h2 →
      hexval d3 = some h3 → hexval d4 = some h4 →
      parse_string ('"' :: '\\' :: 'u' :: d1 :: d2 :: d3 :: d4 :: '"' :: []) =
        .ok (⟨[if ((((h1 <<< 4) ||| h2) <<< 4) ||| h3) <<< 4 ||| h4 ≤ 0x7F
               then Char.ofNat (((((h1 <<< 4) ||| h2) <<< 4) ||| h3) <<< 4 ||| h4)
               else '?']⟩, [])) := by
  refine ⟨rfl, rfl, rfl, rfl, rfl, rfl, rfl, rfl, rfl, ?_⟩
  intro d1 d2 d3 d4 h1 h2 h3 h4 e1 e2 e3 e4
  simp [parse_string, string_fast_path, string_slow_path, string_slow_escape,
    string_slow_unicode, slow_push, e1, e2, e3, e4]

/-- Witness for C4: the unicode clause at `\u0041`, which decodes to `A`. -/
theorem C4_escape_decoding_witness :
    parse_string ('"' :: '\\' :: 'u' :: '0' :: '0' :: '4' :: '1' :: '"' :: []) =
      .ok (⟨[if ((((0 <<< 4) ||| 0) <<< 4) ||| 4) <<< 4 ||| 1 ≤ 0x7F
             then Char.ofNat (((((0 <<< 4) ||| 0) <<< 4) ||| 4) <<< 4 ||| 1)
             else '?']⟩, []) :=
  C4_escape_decoding.2.2.2.2.2.2.2.2.2 '0' '0' '4' '1' 0 0 4 1
    (by decide) (by decide) (by decide) (by decide)

/-- C5: a leading 0 followed by more integer digits makes the document a
syntax error (`{"a": 007}` dies in the object loop), and every accepted
number is retained as the verbatim slice of the input text, so `0.50`
flattens to the literal `0.50`. -/
theorem C5_number_rules :
    (parse_fails "\x7b\"a\": 007\x7d" = true ∧ run_pipeline "\x7b\"a\": 007\x7d" = none) ∧
    (∀ (l : List Char) (n : String) (r : List Char),
      parse_number l = .ok (n, r) → n.data ++ r = l) ∧
    run_pipeline "\x7b\"a\": 0.50\x7d" = some (["a"], [["0.50"]]) :=
  ⟨⟨by decide, rfl⟩, parse_number_verbatim, rfl⟩

/-- Witness for C5: the verbatim clause applied at `0.50}`. -/
theorem C5_number_rules_witness :
    ("0.50" : String).data ++ ['\x7d'] = "0.50\x7d".data :=
  C5_number_rules.2.1 "0.50\x7d".data "0.50" ['\x7d'] rfl

/-- C6 counterexample: a document with a vertical-tab byte (0x0B) between
tokens parses successfully, although the claim states that only space,
tab, newline and carriage return are skipped and any other character
between tokens is a syntax error. -/
theorem C6_whitespace_counterexample :
    parse_top "\x7b\x0B\x7d" = .ok [JValue.jobject JMembers.nil] := rfl

/-- C6 amended: between tokens the parser skips exactly runs of the six C
`isspace` characters — space, tab, newline, vertical tab (0x0B), form feed
(0x0C), carriage return — and no other character, because `p_skip_ws`
calls `isspace`; documents with 0x0B/0x0C between tokens parse, while a
character outside the six (0x01) is a syntax error. -/
theorem C6_whitespace_amended :
    (∀ l : List Char, p_skip_ws l =
      l.dropWhile (fun c =>
        decide (c ∈ [' ', '\t', '\n', Char.ofNat 11, Char.ofNat 12, '\r']))) ∧
    parse_top " \t\r\n\x7b\x7d" = .ok [JValue.jobject JMembers.nil] ∧
    parse_top "\x7b\x0B\x0C\x7d" = .ok [JValue.jobject JMembers.nil] ∧
    parse_fails "\x01\x7b\x7d" = true := by
  refine ⟨?_, rfl, rfl, by decide⟩
  intro l
  induction l with
  | nil => rfl
  | cons c r ih =>
    rw [show p_skip_ws (c :: r) = if c_isspace c then p_skip_ws r else c :: r from rfl,
      List.dropWhile_cons, ← c_isspace_mem]
    by_cases hc : c_isspace c = true
    · simp [hc, ih]
    · simp [hc]

/-- Arena (`{base, cap, off}`): the backing region's byte content is
carried explicitly, one cell per byte. -/
structure Arena where
  cap : Nat
  off : Nat
  mem : List Nat

/-- `a_align_up`: `(x + a - 1) & ~(a - 1)` for the power-of-two alignments
the program uses, i.e. `x + a - 1` rounded down to a multiple of `a`. -/
def a_align_up (x a : Nat) : Nat := (x + a - 1) - (x + a - 1) % a

/-- `arena_alloc`: bump the aligned offset; `none` models the fatal
`die("arena out of memory")`.  The memory content is untouched (malloc
memory is returned uninitialized). -/
def arena_alloc (ar : Arena) (n align : Nat) : Option (Arena × Nat) :=
  if a_align_up ar.off align + n > ar.cap then none
  else some ({ ar with off := a_align_up ar.off align + n }, a_align_up ar.off align)

/-- Byte-wise store of `bytes` starting at `pos` (an out-of-range `set` is
dropped, where the C `memcpy` would write out of bounds). -/
def mem_write : List Nat → Nat → List Nat → List Nat
  | m, _, [] => m
  | m, p, b :: bs => mem_write (m.set p b) (p + 1) bs

/-- Byte-wise load of `n` bytes starting at `pos`. -/
def mem_read (m : List Nat) (pos n : Nat) : List Nat :=
  (List.range n).map (fun i => m.getD (pos + i) 0)

/-- `arena_grow`: allocate fresh space, then `memcpy(p, old, old_bytes)`
whenever the old pointer is non-null and `old_bytes` is non-zero. -/
def arena_grow (ar : Arena) (old : Option Nat) (old_bytes new_bytes align : Nat) :
    Option (Arena × Nat) :=
  match arena_alloc ar new_bytes align with
  | none => none
  | some (ar2, p) =>
    match old with
    | some q =>
      if old_bytes ≠ 0 then
        some ({ ar2 with mem := mem_write ar2.mem p (mem_read ar.mem q old_bytes) }, p)
      else some (ar2, p)
    | none => some (ar2, p)

/-- `arena_mark`. -/
def arena_mark (ar : Arena) : Nat := ar.off

/-- `arena_reset`: roll the offset back; content stays in place. -/
def arena_reset (ar : Arena) (mark : Nat) : Arena := { ar with off := mark }

/-- Aligning up never moves the offset backwards (positive alignment). -/
theorem a_align_up_ge (x a : Nat) (ha : 1 ≤ a) : x ≤ a_align_up x a := by
  have hm : (x + a - 1) % a < a := Nat.mod_lt _ (by omega)
  have hle : (x + a - 1) % a ≤ x + a - 1 := Nat.mod_le _ _
  unfold a_align_up
  omega

/-- Writing does not change the stored length. -/
theorem mem_write_length :
    ∀ (bs m : List Nat) (p : Nat), (mem_write m p bs).length = m.length := by
  intro bs
  induction bs with
  | nil => intro m p; rfl
  | cons b tl ih =>
    intro m p
    simp [mem_write, ih, List.length_set]

/-- Cells before the write window are untouched. -/
theorem mem_write_getD_lt :
    ∀ (bs m : List Nat) (p i : Nat), i < p →
      (mem_write m p bs).getD i 0 = m.getD i 0 := by
  intro bs
  induction bs with
  | nil => intro m p i h; rfl
  | cons b tl ih =>
    intro m p i h
    rw [mem_write, ih _ _ _ (by omega),
      List.getD_eq_getElem?_getD, List.getElem?_set_ne (by omega),
      ← List.getD_eq_getElem?_getD]

/-- Cells at or past the end of the write window are untouched. -/
theorem mem_write_getD_ge :
    ∀ (bs m : List Nat) (p i : Nat), p + bs.length ≤ i →
      (mem_write m p bs).getD i 0 = m.getD i 0 := by
  intro bs
  induction bs with
  | nil => intro m p i h; rfl
  | cons b tl ih =>
    intro m p i h
    simp only [List.length_cons] at h
    rw [mem_write, ih _ _ _ (by omega),
      List.getD_eq_getElem?_getD, List.getElem?_set_ne (by omega),
      ← List.getD_eq_getElem?_getD]

/-- Cells inside an in-bounds write window hold the written bytes. -/
theorem mem_write_getD_in :
    ∀ (bs m : List Nat) (p i : Nat), i < bs.length → p + bs.length ≤ m.length →
      (mem_write m p bs).getD (p + i) 0 = bs.getD i 0 := by
  intro bs
  induction bs with
  | nil => intro m p i h hlen; simp at h
  | cons b tl ih =>
    intro m p i h hlen
    simp only [List.length_cons] at h hlen
    cases i with
    | zero =>
      rw [mem_write, mem_write_getD_lt _ _ _ _ (by omega)]
      simp only [Nat.add_zero, List.getD_cons_zero]
      rw [List.getD_eq_getElem?_getD, List.getElem?_set_self (by omega)]
      rfl
    | succ j =>
      have := ih (m.set p b) (p + 1) j (by omega) (by simp [List.length_set]; omega)
      rw [mem_write, show p + (j + 1) = (p + 1) + j by omega, this]
      rfl

/-- `mem_read` has the requested length. -/
theorem mem_read_length (m : List Nat) (pos n : Nat) : (mem_read m pos n).length = n := by
  simp [mem_read]

/-- `mem_read` returns the stored cells. -/
theorem mem_read_getD (m : List Nat) (pos n i : Nat) (h : i < n) :
    (mem_read m pos n).getD i 0 = m.getD (pos + i) 0 := by
  rw [mem_read, List.getD_eq_getElem?_getD, List.getElem?_map]
  simp [List.getElem?_range h]

/-- C7 counterexample: with `old_size = 2` and `new_size = 1`, `arena_grow`
copies `old_size` bytes, so the cell just past the one-byte allocation
(index `p + min 2 1 = 3`) is overwritten — the claim that only
`min(old_size, new_size)` bytes are copied is false. -/
theorem C7_grow_counterexample :
    ¬ (∀ (ar2 : Arena) (p : Nat),
        arena_grow ⟨8, 2, [7, 8, 0, 0, 0, 0, 0, 0]⟩ (some 0) 2 1 1 = some (ar2, p) →
        ∀ i, p + min 2 1 ≤ i →
          ar2.mem.getD i 0 = (⟨8, 2, [7, 8, 0, 0, 0, 0, 0, 0]⟩ : Arena).mem.getD i 0) := by
  intro hcl
  have h := hcl ⟨8, 3, [7, 8, 7, 8, 0, 0, 0, 0]⟩ 2 rfl 3 (by decide)
  exact absurd h (by decide)

/-- C7 amended: `arena_grow` allocates fresh space at or past the current
offset and copies exactly `old_bytes` bytes (the call sites always grow,
`old_bytes ≤ new_bytes`): the fresh block's first `old_bytes` cells equal
the old region's, every cell outside the copy window `[p, p + old_bytes)`
is untouched, and the old region is not reclaimed — its cells are
unchanged and the offset only advances. -/
theorem C7_grow_amended (ar : Arena) (q old_bytes new_bytes align : Nat)
    (ar2 : Arena) (p : Nat)
    (hmem : ar.mem.length = ar.cap)
    (hq : q + old_bytes ≤ ar.off)
    (hal : 1 ≤ align)
    (hob : old_bytes ≤ new_bytes)
    (hgrow : arena_grow ar (some q) old_bytes new_bytes align = some (ar2, p)) :
    p = a_align_up ar.off align ∧
    ar.off ≤ p ∧
    ar2.off = p + new_bytes ∧
    ar2.off ≤ ar.cap ∧
    ar2.mem.length = ar.mem.length ∧
    (∀ i, i < old_bytes → ar2.mem.getD (p + i) 0 = ar.mem.getD (q + i) 0) ∧
    (∀ i, i < p ∨ p + old_bytes ≤ i → ar2.mem.getD i 0 = ar.mem.getD i 0) ∧
    (∀ i, i < old_bytes → ar2.mem.getD (q + i) 0 = ar.mem.getD (q + i) 0) := by
  by_cases hcap : a_align_up ar.off align + new_bytes > ar.cap
  · have hnone : arena_alloc ar new_bytes align = none := by
      simp [arena_alloc, hcap]
    unfold arena_grow at hgrow
    rw [hnone] at hgrow
    exact absurd hgrow (by simp)
  · have halloc : arena_alloc ar new_bytes align =
        some ({ ar with off := a_align_up ar.off align + new_bytes },
          a_align_up ar.off align) := by
      simp [arena_alloc, hcap]
    unfold arena_grow at hgrow
    rw [halloc] at hgrow
    dsimp only at hgrow
    have hoffp := a_align_up_ge ar.off align hal
    by_cases hzero : old_bytes ≠ 0
    · rw [if_pos hzero] at hgrow
      simp only [Option.some.injEq, Prod.mk.injEq] at hgrow
      obtain ⟨h1, h2⟩ := hgrow
      subst h2
      subst h1
      have hlen : (mem_write ar.mem (a_align_up ar.off align)
          (mem_read ar.mem q old_bytes)).length = ar.mem.length := mem_write_length _ _ _
      refine ⟨rfl, hoffp, rfl,
        (by show a_align_up ar.off align + new_bytes ≤ ar.cap; omega), hlen, ?_, ?_, ?_⟩
      · intro i hi
        exact (mem_write_getD_in _ _ _ _ (by rw [mem_read_length]; exact hi)
            (by rw [mem_read_length]; omega)).trans (mem_read_getD _ _ _ _ hi)
      · intro i hi
        rcases hi with hlo | hhi
        · exact mem_write_getD_lt _ _ _ _ hlo
        · exact mem_write_getD_ge _ _ _ _ (by rw [mem_read_length]; omega)
      · intro i hi
        exact mem_write_getD_lt _ _ _ _ (by omega)
    · rw [if_neg hzero] at hgrow
      simp only [Option.some.injEq, Prod.mk.injEq] at hgrow
      obtain ⟨h1, h2⟩ := hgrow
      subst h2
      subst h1
      have hz : old_bytes = 0 := by omega
      subst hz
      exact ⟨rfl, hoffp, rfl,
        (by show a_align_up ar.off align + new_bytes ≤ ar.cap; omega), rfl,
        fun i hi => absurd hi (Nat.not_lt_zero i),
        fun i hi => rfl, fun i hi => absurd hi (Nat.not_lt_zero i)⟩

/-- Witness for C7 amended: growing a 2-byte block to 4 bytes copies the
old bytes into the fresh block and leaves the old region intact. -/
theorem C7_grow_amended_witness :
    (⟨8, 6, [7, 8, 7, 8, 0, 0, 0, 0]⟩ : Arena).mem.getD (2 + 1) 0 =
      (⟨8, 2, [7, 8, 0, 0, 0, 0, 0, 0]⟩ : Arena).mem.getD (0 + 1) 0 :=
  (C7_grow_amended ⟨8, 2, [7, 8, 0, 0, 0, 0, 0, 0]⟩ 0 2 4 1
    ⟨8, 6, [7, 8, 7, 8, 0, 0, 0, 0]⟩ 2 rfl (by decide) (by decide) (by decide)
    rfl).2.2.2.2.2.1 1 (by decide)

/-- Extending the input past a whitespace run does not change the skip
result when something non-whitespace was found. -/
theorem p_skip_ws_append (l t : List Char) (c : Char) (r : List Char)
    (h : p_skip_ws l = c :: r) : p_skip_ws (l ++ t) = c :: (r ++ t) := by
  induction l with
  | nil => simp [p_skip_ws] at h
  | cons d l0 ih =>
    rw [p_skip_ws] at h
    rw [List.cons_append, p_skip_ws]
    by_cases hd : c_isspace d = true
    · rw [if_pos hd] at h ⊢
      exact ih h
    · rw [if_neg hd] at h ⊢
      injection h with h1 h2
      subst h1; subst h2
      rfl

/-- A matched keyword still matches after extending the input. -/
theorem p_match_kw_append (kw : List Char) :
    ∀ (l t rest : List Char), p_match_kw kw l = some rest →
      p_match_kw kw (l ++ t) = some (rest ++ t) := by
  induction kw with
  | nil =>
    intro l t rest h
    simp only [p_match_kw, Option.some.injEq] at h
    subst h
    rfl
  | cons k ks ih =>
    intro l t rest h
    cases l with
    | nil => simp [p_match_kw] at h
    | cons c cs =>
      rw [p_match_kw] at h
      rw [List.cons_append, p_match_kw]
      by_cases hc : c = k
      · rw [if_pos hc] at h ⊢
        exact ih cs t rest h
      · rw [if_neg hc] at h
        exact absurd h (by simp)

/-- A successful fast-path scan is stable under input extension. -/
theorem string_fast_path_append :
    ∀ (l t s rest : List Char), string_fast_path l = some (s, rest) →
      string_fast_path (l ++ t) = some (s, rest ++ t) := by
  intro l
  induction l with
  | nil => intro t s rest h; simp [string_fast_path] at h
  | cons c r ih =>
    intro t s rest h
    rw [string_fast_path] at h
    rw [List.cons_append, string_fast_path]
    by_cases hq : c = '"'
    · rw [if_pos hq] at h ⊢
      simp only [Option.some.injEq, Prod.mk.injEq] at h
      obtain ⟨h1, h2⟩ := h
      subst h1; subst h2
      rfl
    · rw [if_neg hq] at h ⊢
      by_cases hb : c = '\\'
      · rw [if_pos hb] at h; exact absurd h (by simp)
      · rw [if_neg hb] at h ⊢
        cases hf : string_fast_path r with
        | none => rw [hf] at h; exact absurd h (by simp)
        | some p =>
          obtain ⟨s2, rest2⟩ := p
          rw [hf] at h
          simp only [Option.some.injEq, Prod.mk.injEq] at h
          obtain ⟨h1, h2⟩ := h
          subst h1; subst h2
          rw [ih t s2 rest2 hf]


/-- Inversion for `slow_push`. -/
theorem slow_push_ok (ch : Char) (res : Except PErr (List Char × List Char))
    (s rest : List Char) (h : slow_push ch res = .ok (s, rest)) :
    ∃ s2, res = .ok (s2, rest) ∧ s = ch :: s2 := by
  cases res with
  | error e => simp [slow_push] at h
  | ok p =>
    obtain ⟨s2, r2⟩ := p
    simp only [slow_push, Except.ok.injEq, Prod.mk.injEq] at h
    obtain ⟨h1, h2⟩ := h
    subst h2
    exact ⟨s2, rfl, h1.symm⟩

/-- A successful slow-path decode (and its escape/unicode helpers) is
stable under input extension: the decode ends at the closing quote inside
the original input. -/
theorem slow_path_trio_append :
    ∀ (n : Nat),
      (∀ (l : List Char), l.length ≤ n → ∀ (t s rest : List Char),
        string_slow_path l = .ok (s, rest) →
        string_slow_path (l ++ t) = .ok (s, rest ++ t)) ∧
      (∀ (l : List Char), l.length ≤ n → ∀ (t s rest : List Char),
        string_slow_escape l = .ok (s, rest) →
        string_slow_escape (l ++ t) = .ok (s, rest ++ t)) ∧
      (∀ (l : List Char), l.length ≤ n → ∀ (t s rest : List Char),
        string_slow_unicode l = .ok (s, rest) →
        string_slow_unicode (l ++ t) = .ok (s, rest ++ t)) := by
  intro n
  induction n with
  | zero =>
    refine ⟨?_, ?_, ?_⟩ <;> intro l hl t s rest h <;>
      rw [List.length_eq_zero.mp (Nat.le_zero.mp hl)] at h <;>
      simp [string_slow_path, string_slow_escape, string_slow_unicode] at h
  | succ n ih =>
    obtain ⟨ih1, ih2, ih3⟩ := ih
    refine ⟨?_, ?_, ?_⟩
    · intro l hl t s rest h
      cases l with
      | nil => simp [string_slow_path] at h
      | cons c r =>
        simp only [List.length_cons] at hl
        rw [string_slow_path] at h
        rw [List.cons_append, string_slow_path]
        by_cases hq : c = '"'
        · rw [if_pos hq] at h ⊢
          simp only [Except.ok.injEq, Prod.mk.injEq] at h
          obtain ⟨h1, h2⟩ := h
          subst h1; subst h2
          rfl
        · rw [if_neg hq] at h ⊢
          by_cases hb : c = '\\'
          · rw [if_pos hb] at h ⊢
            exact ih2 r (by omega) t s rest h
          · rw [if_neg hb] at h ⊢
            obtain ⟨s2, hres, hs⟩ := slow_push_ok c _ s rest h
            subst hs
            rw [ih1 r (by omega) t s2 rest hres]
            rfl
    · intro l hl t s rest h
      cases l with
      | nil => simp [string_slow_escape] at h
      | cons e r2 =>
        simp only [List.length_cons] at hl
        rw [string_slow_escape] at h
        rw [List.cons_append, string_slow_escape]
        by_cases he1 : e = '"'
        · rw [if_pos he1] at h ⊢
          obtain ⟨s2, hres, hs⟩ := slow_push_ok _ _ s rest h
          subst hs
          rw [ih1 r2 (by omega) t s2 rest hres]
          rfl
        · rw [if_neg he1] at h ⊢
          by_cases he2 : e = '\\'
          · rw [if_pos he2] at h ⊢
            obtain ⟨s2, hres, hs⟩ := slow_push_ok _ _ s rest h
            subst hs
            rw [ih1 r2 (by omega) t s2 rest hres]
            rfl
          · rw [if_neg he2] at h ⊢
            by_cases he3 : e = '/'
            · rw [if_pos he3] at h ⊢
              obtain ⟨s2, hres, hs⟩ := slow_push_ok _ _ s rest h
              subst hs
              rw [ih1 r2 (by omega) t s2 rest hres]
              rfl
            · rw [if_neg he3] at h ⊢
              by_cases he4 : e = 'b'
              · rw [if_pos he4] at h ⊢
                obtain ⟨s2, hres, hs⟩ := slow_push_ok _ _ s rest h
                subst hs
                rw [ih1 r2 (by omega) t s2 rest hres]
                rfl
              · rw [if_neg he4] at h ⊢
                by_cases he5 : e = 'f'
                · rw [if_pos he5] at h ⊢
                  obtain ⟨s2, hres, hs⟩ := slow_push_ok _ _ s rest h
                  subst hs
                  rw [ih1 r2 (by omega) t s2 rest hres]
                  rfl
                · rw [if_neg he5] at h ⊢
                  by_cases he6 : e = 'n'
                  · rw [if_pos he6] at h ⊢
                    obtain ⟨s2, hres, hs⟩ := slow_push_ok _ _ s rest h
                    subst hs
                    rw [ih1 r2 (by omega) t s2 rest hres]
                    rfl
                  · rw [if_neg he6] at h ⊢
                    by_cases he7 : e = 'r'
                    · rw [if_pos he7] at h ⊢
                      obtain ⟨s2, hres, hs⟩ := slow_push_ok _ _ s rest h
                      subst hs
                      rw [ih1 r2 (by omega) t s2 rest hres]
                      rfl
                    · rw [if_neg he7] at h ⊢
                      by_cases he8 : e = 't'
                      · rw [if_pos he8] at h ⊢
                        obtain ⟨s2, hres, hs⟩ := slow_push_ok _ _ s rest h
                        subst hs
                        rw [ih1 r2 (by omega) t s2 rest hres]
                        rfl
                      · rw [if_neg he8] at h ⊢
                        by_cases he9 : e = 'u'
                        · rw [if_pos he9] at h ⊢
                          exact ih3 r2 (by omega) t s rest h
                        · rw [if_neg he9] at h
                          exact absurd h (by simp)
    · intro l hl t s rest h
      match l with
      | [] => simp [string_slow_unicode] at h
      | [d1] => simp [string_slow_unicode] at h
      | [d1, d2] => simp [string_slow_unicode] at h
      | [d1, d2, d3] => simp [string_slow_unicode] at h
      | d1 :: d2 :: d3 :: d4 :: r3 =>
        simp only [List.length_cons] at hl
        rw [string_slow_unicode] at h
        rw [List.cons_append, List.cons_append, List.cons_append, List.cons_append,
          string_slow_unicode]
        cases hv1 : hexval d1 with
        | none => simp [hv1] at h
        | some x1 =>
          simp only [hv1] at h ⊢
          cases hv2 : hexval d2 with
          | none => simp [hv2] at h
          | some x2 =>
            simp only [hv2] at h ⊢
            cases hv3 : hexval d3 with
            | none => simp [hv3] at h
            | some x3 =>
              simp only [hv3] at h ⊢
              cases hv4 : hexval d4 with
              | none => simp [hv4] at h
              | some x4 =>
                simp only [hv4] at h ⊢
                obtain ⟨s2, hres, hs⟩ := slow_push_ok _ _ s rest h
                subst hs
                rw [ih1 r3 (by omega) t s2 rest hres]
                rfl

/-- Corollary of the trio lemma for the slow path itself. -/
theorem string_slow_path_append (l t s rest : List Char)
    (h : string_slow_path l = .ok (s, rest)) :
    string_slow_path (l ++ t) = .ok (s, rest ++ t) :=
  (slow_path_trio_append l.length).1 l le_rfl t s rest h

/-- When the fast path fails but the slow path succeeds, a backslash sits
before the first quote, so the extended fast path fails as well. -/
theorem string_fast_path_none_append :
    ∀ (l t s rest : List Char), string_fast_path l = none →
      string_slow_path l = .ok (s, rest) → string_fast_path (l ++ t) = none := by
  intro l
  induction l with
  | nil => intro t s rest h1 h2; simp [string_slow_path] at h2
  | cons c r ih =>
    intro t s rest h1 h2
    rw [string_fast_path] at h1
    rw [List.cons_append, string_fast_path]
    by_cases hq : c = '"'
    · rw [if_pos hq] at h1; exact absurd h1 (by simp)
    · rw [if_neg hq] at h1 ⊢
      by_cases hb : c = '\\'
      · rw [if_pos hb]
      · rw [if_neg hb] at h1 ⊢
        rw [string_slow_path, if_neg hq, if_neg hb] at h2
        obtain ⟨s2, hres, hs⟩ := slow_push_ok c _ s rest h2
        cases hf : string_fast_path r with
        | some p =>
          obtain ⟨s3, r3⟩ := p
          rw [hf] at h1
          exact absurd h1 (by simp)
        | none =>
          rw [ih t s2 rest hf hres]

/-- A successfully parsed string is stable under input extension: the
closing quote is consumed inside the original input. -/
theorem parse_string_append (l t : List Char) (s : String) (rest : List Char)
    (h : parse_string l = .ok (s, rest)) :
    parse_string (l ++ t) = .ok (s, rest ++ t) := by
  cases l with
  | nil => simp [parse_string] at h
  | cons c r =>
    rw [parse_string] at h
    rw [List.cons_append, parse_string]
    by_cases hq : c = '"'
    · rw [if_pos hq] at h ⊢
      cases hf : string_fast_path r with
      | some p =>
        obtain ⟨s2, rest2⟩ := p
        rw [hf] at h
        simp only [Except.ok.injEq, Prod.mk.injEq] at h
        obtain ⟨h1, h2⟩ := h
        subst h1; subst h2
        rw [string_fast_path_append r t s2 rest2 hf]
      | none =>
        rw [hf] at h
        cases hs : string_slow_path r with
        | error e => rw [hs] at h; exact absurd h (by simp)
        | ok p =>
          obtain ⟨s2, rest2⟩ := p
          rw [hs] at h
          simp only [Except.ok.injEq, Prod.mk.injEq] at h
          obtain ⟨h1, h2⟩ := h
          subst h1; subst h2
          rw [string_fast_path_none_append r t s2 rest2 hf hs,
            string_slow_path_append r t s2 rest2 hs]
    · rw [if_neg hq] at h
      exact absurd h (by simp)

/-- A digit run that stopped at a real character is stable under input
extension. -/
theorem take_digits_append_cons :
    ∀ (l t ds r : List Char) (c : Char), take_digits l = (ds, c :: r) →
      take_digits (l ++ t) = (ds, c :: (r ++ t)) := by
  intro l
  induction l with
  | nil => intro t ds r c h; simp [take_digits] at h
  | cons d l0 ih =>
    intro t ds r c h
    rw [take_digits] at h
    rw [List.cons_append, take_digits]
    by_cases hd : c_isdigit d = true
    · rw [if_pos hd] at h ⊢
      cases hq : take_digits l0 with
      | mk ds2 rest2 =>
        rw [hq] at h
        simp only [Prod.mk.injEq] at h
        obtain ⟨h1, h2⟩ := h
        subst h1
        rw [ih t ds2 r c (by rw [hq, h2])]
    · rw [if_neg hd] at h ⊢
      simp only [Prod.mk.injEq] at h
      obtain ⟨h1, h2⟩ := h
      subst h1
      injection h2 with h3 h4
      subst h3; subst h4
      rfl

/-- `number_frac` on a list not starting with a dot consumes nothing. -/
theorem number_frac_not_dot (c0 : Char) (r0 : List Char) (h : ¬ c0 = '.') :
    number_frac (c0 :: r0) = .ok ([], c0 :: r0) := by
  rw [number_frac_cons, if_neg h]

/-- A fraction-part parse that stopped at a real character is stable under
input extension. -/
theorem number_frac_append_cons (l t fp r : List Char) (c : Char)
    (h : number_frac l = .ok (fp, c :: r)) :
    number_frac (l ++ t) = .ok (fp, c :: (r ++ t)) := by
  cases l with
  | nil => rw [number_frac_nil] at h; exact absurd h (by simp)
  | cons c0 r0 =>
    by_cases hdot : c0 = '.'
    · rw [number_frac_cons, if_pos hdot] at h
      rw [List.cons_append, number_frac_cons, if_pos hdot]
      cases r0 with
      | nil => exact absurd h (by simp)
      | cons c1 r2 =>
        rw [List.cons_append]
        simp only [] at h ⊢
        by_cases hd : c_isdigit c1 = true
        · rw [if_pos hd] at h ⊢
          cases hq : take_digits (c1 :: r2) with
          | mk ds rest2 =>
            rw [hq] at h
            simp only [Except.ok.injEq, Prod.mk.injEq] at h
            obtain ⟨h1, h2⟩ := h
            subst h1
            have hext := take_digits_append_cons (c1 :: r2) t ds r c (by rw [hq, h2])
            rw [List.cons_append] at hext
            rw [hext]
        · rw [if_neg hd] at h
          exact absurd h (by simp)
    · rw [number_frac_not_dot c0 r0 hdot] at h
      simp only [Except.ok.injEq, Prod.mk.injEq] at h
      obtain ⟨h1, h2⟩ := h
      subst h1
      injection h2 with h3 h4
      rw [List.cons_append, number_frac_not_dot c0 (r0 ++ t) hdot, h3, h4]

/-- A successful fraction-part parse that stopped at a real character
begins on a non-empty input. -/
theorem number_frac_ok_ne_nil (l fp r : List Char) (c : Char)
    (h : number_frac l = .ok (fp, c :: r)) : l ≠ [] := by
  intro hl
  subst hl
  rw [number_frac_nil] at h
  exact absurd h (by simp)

/-- An exponent-part parse that stopped at a real character is stable
under input extension. -/
theorem number_exp_append_cons (l t ep r : List Char) (c : Char)
    (h : number_exp l = .ok (ep, c :: r)) :
    number_exp (l ++ t) = .ok (ep, c :: (r ++ t)) := by
  cases l with
  | nil => rw [number_exp_nil] at h; exact absurd h (by simp)
  | cons c0 r0 =>
    rw [number_exp_cons] at h
    rw [List.cons_append, number_exp_cons]
    by_cases he : (c0 = 'e' || c0 = 'E') = true
    · rw [if_pos he] at h ⊢
      cases r0 with
      | nil => exact absurd h (by simp)
      | cons s0 r2 =>
        rw [List.cons_append]
        simp only [] at h ⊢
        by_cases hs : (s0 = '+' || s0 = '-') = true
        · rw [if_pos hs] at h ⊢
          cases r2 with
          | nil => exact absurd h (by simp)
          | cons d0 r3 =>
            rw [List.cons_append]
            simp only [] at h ⊢
            by_cases hd : c_isdigit d0 = true
            · rw [if_pos hd] at h ⊢
              cases hq : take_digits (d0 :: r3) with
              | mk ds rest2 =>
                rw [hq] at h
                simp only [Except.ok.injEq, Prod.mk.injEq] at h
                obtain ⟨h1, h2⟩ := h
                subst h1
                have hext := take_digits_append_cons (d0 :: r3) t ds r c (by rw [hq, h2])
                rw [List.cons_append] at hext
                rw [hext]
            · rw [if_neg hd] at h
              exact absurd h (by simp)
        · rw [if_neg hs] at h ⊢
          by_cases hd : c_isdigit s0 = true
          · rw [if_pos hd] at h ⊢
            cases hq : take_digits (s0 :: r2) with
            | mk ds rest2 =>
              rw [hq] at h
              simp only [Except.ok.injEq, Prod.mk.injEq] at h
              obtain ⟨h1, h2⟩ := h
              subst h1
              have hext := take_digits_append_cons (s0 :: r2) t ds r c (by rw [hq, h2])
              rw [List.cons_append] at hext
              rw [hext]
          · rw [if_neg hd] at h
            exact absurd h (by simp)
    · rw [if_neg he] at h ⊢
      simp only [Except.ok.injEq, Prod.mk.injEq] at h
      obtain ⟨h1, h2⟩ := h
      subst h1
      injection h2 with h3 h4
      subst h3; subst h4
      rfl

/-- A successful exponent-part parse that stopped at a real character
begins on a non-empty input. -/
theorem number_exp_ok_ne_nil (l ep r : List Char) (c : Char)
    (h : number_exp l = .ok (ep, c :: r)) : l ≠ [] := by
  intro hl
  subst hl
  rw [number_exp_nil] at h
  exact absurd h (by simp)

/-- One-step unfolding of `parse_number_body` at a cons cell. -/
theorem parse_number_body_cons (sign : List Char) (c : Char) (r : List Char) :
    parse_number_body sign (c :: r) =
      (if c_isdigit c then
        match (if c = '0' then (['0'], r) else take_digits (c :: r)) with
        | (ip, l2) =>
          match number_frac l2 with
          | .error e => .error e
          | .ok (fp, l3) =>
            match number_exp l3 with
            | .error e => .error e
            | .ok (ep, l4) => .ok (⟨sign ++ ip ++ fp ++ ep⟩, l4)
      else .error (.syn "bad number")) := by
  rw [parse_number_body.eq_def]

/-- `parse_number_body` on empty input. -/
theorem parse_number_body_nil (sign : List Char) :
    parse_number_body sign [] = .error (.syn "bad number") := by
  rw [parse_number_body.eq_def]

/-- A number parse that stopped at a real character is stable under input
extension. -/
theorem parse_number_body_append_cons (sign l1 t : List Char) (n : String)
    (r : List Char) (c : Char)
    (h : parse_number_body sign l1 = .ok (n, c :: r)) :
    parse_number_body sign (l1 ++ t) = .ok (n, c :: (r ++ t)) := by
  cases l1 with
  | nil => rw [parse_number_body_nil] at h; exact absurd h (by simp)
  | cons c1 r1 =>
    rw [parse_number_body_cons] at h
    rw [List.cons_append, parse_number_body_cons]
    by_cases hd : c_isdigit c1 = true
    · rw [if_pos hd] at h ⊢
      by_cases h0 : c1 = '0'
      · rw [if_pos h0] at h ⊢
        simp only [] at h ⊢
        cases hf : number_frac r1 with
        | error e => rw [hf] at h; simp at h
        | ok p =>
          obtain ⟨fp, l3⟩ := p
          rw [hf] at h
          simp only [] at h
          cases hex : number_exp l3 with
          | error e => rw [hex] at h; simp at h
          | ok q =>
            obtain ⟨ep, l4⟩ := q
            rw [hex] at h
            simp only [Except.ok.injEq, Prod.mk.injEq] at h
            obtain ⟨h1, h2⟩ := h
            subst h1
            have hl3 : l3 ≠ [] := number_exp_ok_ne_nil l3 ep r c (by rw [hex, h2])
            obtain ⟨c3, r3, rfl⟩ : ∃ c3 r3, l3 = c3 :: r3 := by
              cases l3 with
              | nil => exact absurd rfl hl3
              | cons a b => exact ⟨a, b, rfl⟩
            have hfe := number_frac_append_cons r1 t fp r3 c3 hf
            have hee := number_exp_append_cons (c3 :: r3) t ep r c (by rw [hex, h2])
            rw [hfe]
            simp only []
            rw [List.cons_append] at hee
            rw [hee]
      · rw [if_neg h0] at h ⊢
        cases hq : take_digits (c1 :: r1) with
        | mk ip l2 =>
          rw [hq] at h
          simp only [] at h
          cases hf : number_frac l2 with
          | error e => rw [hf] at h; simp at h
          | ok p =>
            obtain ⟨fp, l3⟩ := p
            rw [hf] at h
            simp only [] at h
            cases hex : number_exp l3 with
            | error e => rw [hex] at h; simp at h
            | ok q =>
              obtain ⟨ep, l4⟩ := q
              rw [hex] at h
              simp only [Except.ok.injEq, Prod.mk.injEq] at h
              obtain ⟨h1, h2⟩ := h
              subst h1
              have hl3 : l3 ≠ [] := number_exp_ok_ne_nil l3 ep r c (by rw [hex, h2])
              obtain ⟨c3, r3, rfl⟩ : ∃ c3 r3, l3 = c3 :: r3 := by
                cases l3 with
                | nil => exact absurd rfl hl3
                | cons a b => exact ⟨a, b, rfl⟩
              have hl2 : l2 ≠ [] := number_frac_ok_ne_nil l2 fp r3 c3 hf
              obtain ⟨c2, r2b, rfl⟩ : ∃ c2 r2b, l2 = c2 :: r2b := by
                cases l2 with
                | nil => exact absurd rfl hl2
                | cons a b => exact ⟨a, b, rfl⟩
              have hqe := take_digits_append_cons (c1 :: r1) t ip r2b c2 hq
              rw [List.cons_append] at hqe
              rw [hqe]
              simp only []
              have hfe := number_frac_append_cons (c2 :: r2b) t fp r3 c3 hf
              rw [List.cons_append] at hfe
              rw [hfe]
              simp only []
              have hee := number_exp_append_cons (c3 :: r3) t ep r c (by rw [hex, h2])
              rw [List.cons_append] at hee
              rw [hee]
    · rw [if_neg hd] at h
      exact absurd h (by simp)

/-- `parse_number` is stable under input extension when it stopped at a
real character. -/
theorem parse_number_append_cons (l t : List Char) (n : String) (r : List Char) (c : Char)
    (h : parse_number l = .ok (n, c :: r)) :
    parse_number (l ++ t) = .ok (n, c :: (r ++ t)) := by
  cases l with
  | nil =>
    rw [parse_number.eq_def] at h
    rw [parse_number_body_nil] at h
    exact absurd h (by simp)
  | cons c1 l1 =>
    rw [parse_number_cons] at h
    rw [List.cons_append, parse_number_cons]
    by_cases hm : c1 = '-'
    · rw [if_pos hm] at h ⊢
      exact parse_number_body_append_cons ['-'] l1 t n r c h
    · rw [if_neg hm] at h ⊢
      have := parse_number_body_append_cons [] (c1 :: l1) t n r c h
      rw [List.cons_append] at this
      exact this

/-- Fuel monotonicity: a parse that succeeds with some fuel also succeeds,
with the same result, with one more unit of fuel. -/
theorem parser_mono_step :
    ∀ (f : Nat),
      (∀ (l : List Char) (res : JValue × List Char),
        parse_value f l = .ok res → parse_value (f + 1) l = .ok res) ∧
      (∀ (acc : JMembers) (l : List Char) (res : JValue × List Char),
        parse_members f acc l = .ok res → parse_members (f + 1) acc l = .ok res) ∧
      (∀ (acc : JValueList) (l : List Char) (res : JValue × List Char),
        parse_items f acc l = .ok res → parse_items (f + 1) acc l = .ok res) := by
  intro f
  induction f with
  | zero =>
    refine ⟨?_, ?_, ?_⟩
    · intro l res h; rw [parse_value] at h; exact absurd h (by simp)
    · intro acc l res h; rw [parse_members] at h; exact absurd h (by simp)
    · intro acc l res h; rw [parse_items] at h; exact absurd h (by simp)
  | succ f ih =>
    obtain ⟨ihv, ihm, ihi⟩ := ih
    refine ⟨?_, ?_, ?_⟩
    · intro l res h
      rw [parse_value] at h
      rw [parse_value]
      cases hsk : p_skip_ws l with
      | nil => rw [hsk] at h; exact absurd h (by simp)
      | cons c r =>
        rw [hsk] at h
        simp only [] at h ⊢
        by_cases hq : c = '"'
        · rw [if_pos hq] at h ⊢
          exact h
        · rw [if_neg hq] at h ⊢
          by_cases hob : c = '{'
          · rw [if_pos hob] at h ⊢
            cases hsk2 : p_skip_ws r with
            | nil =>
              rw [hsk2] at h
              simp only [] at h ⊢
              exact ihm JMembers.nil [] res h
            | cons d rr =>
              rw [hsk2] at h
              simp only [] at h ⊢
              by_cases hcb : d = '}'
              · rw [if_pos hcb] at h ⊢
                exact h
              · rw [if_neg hcb] at h ⊢
                exact ihm JMembers.nil (d :: rr) res h
          · rw [if_neg hob] at h ⊢
            by_cases har : c = '['
            · rw [if_pos har] at h ⊢
              cases hsk2 : p_skip_ws r with
              | nil =>
                rw [hsk2] at h
                simp only [] at h ⊢
                exact ihi JValueList.nil [] res h
              | cons d rr =>
                rw [hsk2] at h
                simp only [] at h ⊢
                by_cases hcb : d = ']'
                · rw [if_pos hcb] at h ⊢
                  exact h
                · rw [if_neg hcb] at h ⊢
                  exact ihi JValueList.nil (d :: rr) res h
            · rw [if_neg har] at h ⊢
              exact h
    · intro acc l res h
      rw [parse_members] at h
      rw [parse_members]
      cases hsk : p_skip_ws l with
      | nil => rw [hsk] at h; exact absurd h (by simp)
      | cons d r =>
        rw [hsk] at h
        simp only [] at h ⊢
        by_cases hk : d = '"'
        · rw [if_pos hk] at h ⊢
          cases hps : parse_string (d :: r) with
          | error e => rw [hps] at h; exact absurd h (by simp)
          | ok p =>
            obtain ⟨k, rest⟩ := p
            rw [hps] at h
            simp only [] at h ⊢
            cases hsk2 : p_skip_ws rest with
            | nil => rw [hsk2] at h; exact absurd h (by simp)
            | cons d2 r2 =>
              rw [hsk2] at h
              simp only [] at h ⊢
              by_cases hcol : d2 = ':'
              · rw [if_pos hcol] at h ⊢
                cases hpv : parse_value f (p_skip_ws r2) with
                | error e => rw [hpv] at h; exact absurd h (by simp)
                | ok q =>
                  obtain ⟨v, r3⟩ := q
                  rw [hpv] at h
                  rw [ihv (p_skip_ws r2) (v, r3) hpv]
                  simp only [] at h ⊢
                  cases hsk3 : p_skip_ws r3 with
                  | nil => rw [hsk3] at h; exact absurd h (by simp)
                  | cons d3 r4 =>
                    rw [hsk3] at h
                    simp only [] at h ⊢
                    by_cases hcm : d3 = ','
                    · rw [if_pos hcm] at h ⊢
                      exact ihm (acc.snoc k v) r4 res h
                    · rw [if_neg hcm] at h ⊢
                      exact h
              · rw [if_neg hcol] at h
                exact absurd h (by simp)
        · rw [if_neg hk] at h
          exact absurd h (by simp)
    · intro acc l res h
      rw [parse_items] at h
      rw [parse_items]
      cases hpv : parse_value f (p_skip_ws l) with
      | error e => rw [hpv] at h; exact absurd h (by simp)
      | ok q =>
        obtain ⟨v, r⟩ := q
        rw [hpv] at h
        rw [ihv (p_skip_ws l) (v, r) hpv]
        simp only [] at h ⊢
        cases hsk : p_skip_ws r with
        | nil => rw [hsk] at h; exact absurd h (by simp)
        | cons d r2 =>
          rw [hsk] at h
          simp only [] at h ⊢
          by_cases hcm : d = ','
          · rw [if_pos hcm] at h ⊢
            exact ihi (acc.snoc v) r2 res h
          · rw [if_neg hcm] at h ⊢
            exact h

/-- `parse_value` always fails on empty input. -/
theorem parse_value_nil_error (f : Nat) : ∃ e, parse_value f [] = .error e := by
  cases f with
  | zero => exact ⟨.fuel, rfl⟩
  | succ g =>
    refine ⟨.syn "unexpected EOF", ?_⟩
    rw [parse_value]
    simp only [p_skip_ws]

/-- `parse_members` always fails on empty input. -/
theorem parse_members_nil_error (f : Nat) (acc : JMembers) :
    ∃ e, parse_members f acc [] = .error e := by
  cases f with
  | zero => exact ⟨.fuel, rfl⟩
  | succ g =>
    refine ⟨.syn "object key must be string", ?_⟩
    rw [parse_members]
    simp only [p_skip_ws]

/-- `parse_items` always fails on empty input. -/
theorem parse_items_nil_error (f : Nat) (acc : JValueList) :
    ∃ e, parse_items f acc [] = .error e := by
  cases f with
  | zero => exact ⟨.fuel, rfl⟩
  | succ g =>
    obtain ⟨e, he⟩ := parse_value_nil_error g
    refine ⟨e, ?_⟩
    rw [parse_items]
    simp only [p_skip_ws]
    rw [he]

/-- Input extension (prefix stability): a parse that succeeded and stopped
at a delimiter — or on any non-number value — gives the same result when
arbitrary bytes are appended to the input, consuming the same prefix. -/
theorem parser_append :
    ∀ (f : Nat),
      (∀ (l t : List Char) (v : JValue) (r : List Char),
        parse_value f l = .ok (v, r) → (r ≠ [] ∨ v.isNumber = false) →
        parse_value f (l ++ t) = .ok (v, r ++ t)) ∧
      (∀ (acc : JMembers) (l t : List Char) (v : JValue) (r : List Char),
        parse_members f acc l = .ok (v, r) →
        parse_members f acc (l ++ t) = .ok (v, r ++ t)) ∧
      (∀ (acc : JValueList) (l t : List Char) (v : JValue) (r : List Char),
        parse_items f acc l = .ok (v, r) →
        parse_items f acc (l ++ t) = .ok (v, r ++ t)) := by
  intro f
  induction f with
  | zero =>
    refine ⟨?_, ?_, ?_⟩
    · intro l t v r h hside; rw [parse_value] at h; exact absurd h (by simp)
    · intro acc l t v r h; rw [parse_members] at h; exact absurd h (by simp)
    · intro acc l t v r h; rw [parse_items] at h; exact absurd h (by simp)
  | succ f ih =>
    obtain ⟨ihv, ihm, ihi⟩ := ih
    refine ⟨?_, ?_, ?_⟩
    · intro l t v r h hside
      rw [parse_value] at h
      rw [parse_value]
      cases hsk : p_skip_ws l with
      | nil => rw [hsk] at h; exact absurd h (by simp)
      | cons c r0 =>
        rw [hsk] at h
        rw [p_skip_ws_append l t c r0 hsk]
        simp only [] at h ⊢
        by_cases hq : c = '"'
        · rw [if_pos hq] at h ⊢
          cases hps : parse_string (c :: r0) with
          | error e => rw [hps] at h; exact absurd h (by simp)
          | ok p =>
            obtain ⟨str, rest⟩ := p
            rw [hps] at h
            have hext := parse_string_append (c :: r0) t str rest hps
            rw [List.cons_append] at hext
            rw [hext]
            simp only [Except.ok.injEq, Prod.mk.injEq] at h
            obtain ⟨h1, h2⟩ := h
            subst h1; subst h2
            rfl
        · rw [if_neg hq] at h ⊢
          by_cases hob : c = '{'
          · rw [if_pos hob] at h ⊢
            cases hsk2 : p_skip_ws r0 with
            | nil =>
              rw [hsk2] at h
              obtain ⟨e, he⟩ := parse_members_nil_error f JMembers.nil
              rw [he] at h
              exact absurd h (by simp)
            | cons d rr =>
              rw [hsk2] at h
              rw [p_skip_ws_append r0 t d rr hsk2]
              simp only [] at h ⊢
              by_cases hcb : d = '}'
              · rw [if_pos hcb] at h ⊢
                simp only [Except.ok.injEq, Prod.mk.injEq] at h
                obtain ⟨h1, h2⟩ := h
                subst h1; subst h2
                rfl
              · rw [if_neg hcb] at h ⊢
                have := ihm JMembers.nil (d :: rr) t v r h
                rw [List.cons_append] at this
                exact this
          · rw [if_neg hob] at h ⊢
            by_cases har : c = '['
            · rw [if_pos har] at h ⊢
              cases hsk2 : p_skip_ws r0 with
              | nil =>
                rw [hsk2] at h
                obtain ⟨e, he⟩ := parse_items_nil_error f JValueList.nil
                rw [he] at h
                exact absurd h (by simp)
              | cons d rr =>
                rw [hsk2] at h
                rw [p_skip_ws_append r0 t d rr hsk2]
                simp only [] at h ⊢
                by_cases hcb : d = ']'
                · rw [if_pos hcb] at h ⊢
                  simp only [Except.ok.injEq, Prod.mk.injEq] at h
                  obtain ⟨h1, h2⟩ := h
                  subst h1; subst h2
                  rfl
                · rw [if_neg hcb] at h ⊢
                  have := ihi JValueList.nil (d :: rr) t v r h
                  rw [List.cons_append] at this
                  exact this
            · rw [if_neg har] at h ⊢
              by_cases ht : c = 't'
              · rw [if_pos ht] at h ⊢
                cases hkw : p_match_kw "true".data (c :: r0) with
                | none => rw [hkw] at h; exact absurd h (by simp)
                | some rest =>
                  rw [hkw] at h
                  have hext := p_match_kw_append "true".data (c :: r0) t rest hkw
                  rw [List.cons_append] at hext
                  rw [hext]
                  simp only [Except.ok.injEq, Prod.mk.injEq] at h
                  obtain ⟨h1, h2⟩ := h
                  subst h1; subst h2
                  rfl
              · rw [if_neg ht] at h ⊢
                by_cases hf2 : c = 'f'
                · rw [if_pos hf2] at h ⊢
                  cases hkw : p_match_kw "false".data (c :: r0) with
                  | none => rw [hkw] at h; exact absurd h (by simp)
                  | some rest =>
                    rw [hkw] at h
                    have hext := p_match_kw_append "false".data (c :: r0) t rest hkw
                    rw [List.cons_append] at hext
                    rw [hext]
                    simp only [Except.ok.injEq, Prod.mk.injEq] at h
                    obtain ⟨h1, h2⟩ := h
                    subst h1; subst h2
                    rfl
                · rw [if_neg hf2] at h ⊢
                  by_cases hn : c = 'n'
                  · rw [if_pos hn] at h ⊢
                    cases hkw : p_match_kw "null".data (c :: r0) with
                    | none => rw [hkw] at h; exact absurd h (by simp)
                    | some rest =>
                      rw [hkw] at h
                      have hext := p_match_kw_append "null".data (c :: r0) t rest hkw
                      rw [List.cons_append] at hext
                      rw [hext]
                      simp only [Except.ok.injEq, Prod.mk.injEq] at h
                      obtain ⟨h1, h2⟩ := h
                      subst h1; subst h2
                      rfl
                  · rw [if_neg hn] at h ⊢
                    by_cases hnum : (c = '-' || c_isdigit c) = true
                    · rw [if_pos hnum] at h ⊢
                      cases hpn : parse_number (c :: r0) with
                      | error e => rw [hpn] at h; exact absurd h (by simp)
                      | ok p =>
                        obtain ⟨num, rest⟩ := p
                        rw [hpn] at h
                        simp only [Except.ok.injEq, Prod.mk.injEq] at h
                        obtain ⟨h1, h2⟩ := h
                        subst h1; subst h2
                        have hr : rest ≠ [] := by
                          rcases hside with hr | hv
                          · exact hr
                          · simp [JValue.isNumber] at hv
                        obtain ⟨c2, r2, rfl⟩ : ∃ c2 r2, rest = c2 :: r2 := by
                          cases rest with
                          | nil => exact absurd rfl hr
                          | cons a b => exact ⟨a, b, rfl⟩
                        have hext := parse_number_append_cons (c :: r0) t num r2 c2 hpn
                        rw [List.cons_append] at hext
                        rw [hext]
                        rfl
                    · rw [if_neg hnum] at h
                      exact absurd h (by simp)
    · intro acc l t v r h
      rw [parse_members] at h
      rw [parse_members]
      cases hsk : p_skip_ws l with
      | nil => rw [hsk] at h; exact absurd h (by simp)
      | cons d r0 =>
        rw [hsk] at h
        rw [p_skip_ws_append l t d r0 hsk]
        simp only [] at h ⊢
        by_cases hk : d = '"'
        · rw [if_pos hk] at h ⊢
          cases hps : parse_string (d :: r0) with
          | error e => rw [hps] at h; exact absurd h (by simp)
          | ok p =>
            obtain ⟨k, rest⟩ := p
            rw [hps] at h
            have hext := parse_string_append (d :: r0) t k rest hps
            rw [List.cons_append] at hext
            rw [hext]
            simp only [] at h ⊢
            cases hsk2 : p_skip_ws rest with
            | nil => rw [hsk2] at h; exact absurd h (by simp)
            | cons d2 r2 =>
              rw [hsk2] at h
              rw [p_skip_ws_append rest t d2 r2 hsk2]
              simp only [] at h ⊢
              by_cases hcol : d2 = ':'
              · rw [if_pos hcol] at h ⊢
                cases hpv : parse_value f (p_skip_ws r2) with
                | error e => rw [hpv] at h; exact absurd h (by simp)
                | ok q =>
                  obtain ⟨v0, r3⟩ := q
                  rw [hpv] at h
                  simp only [] at h
                  cases hsk3 : p_skip_ws r3 with
                  | nil => rw [hsk3] at h; exact absurd h (by simp)
                  | cons d3 r4 =>
                    rw [hsk3] at h
                    have hr3 : r3 ≠ [] := by
                      intro hemp
                      subst hemp
                      simp [p_skip_ws] at hsk3
                    cases hskv : p_skip_ws r2 with
                    | nil =>
                      rw [hskv] at hpv
                      obtain ⟨e, he⟩ := parse_value_nil_error f
                      rw [he] at hpv
                      exact absurd hpv (by simp)
                    | cons c0 rr0 =>
                      rw [hskv] at hpv
                      have hvext := ihv (c0 :: rr0) t v0 r3 hpv (Or.inl hr3)
                      rw [List.cons_append] at hvext
                      rw [p_skip_ws_append r2 t c0 rr0 hskv, hvext]
                      simp only []
                      rw [p_skip_ws_append r3 t d3 r4 hsk3]
                      simp only [] at h ⊢
                      by_cases hcm : d3 = ','
                      · rw [if_pos hcm] at h ⊢
                        exact ihm (acc.snoc k v0) r4 t v r h
                      · rw [if_neg hcm] at h ⊢
                        by_cases hbr : d3 = '}'
                        · rw [if_pos hbr] at h ⊢
                          simp only [Except.ok.injEq, Prod.mk.injEq] at h
                          obtain ⟨h1, h2⟩ := h
                          subst h1; subst h2
                          rfl
                        · rw [if_neg hbr] at h
                          exact absurd h (by simp)
              · rw [if_neg hcol] at h
                exact absurd h (by simp)
        · rw [if_neg hk] at h
          exact absurd h (by simp)
    · intro acc l t v r h
      rw [parse_items] at h
      rw [parse_items]
      cases hpv : parse_value f (p_skip_ws l) with
      | error e => rw [hpv] at h; exact absurd h (by simp)
      | ok q =>
        obtain ⟨v0, r0⟩ := q
        rw [hpv] at h
        simp only [] at h
        cases hsk : p_skip_ws r0 with
        | nil => rw [hsk] at h; exact absurd h (by simp)
        | cons d r2 =>
          rw [hsk] at h
          have hr0 : r0 ≠ [] := by
            intro hemp
            subst hemp
            simp [p_skip_ws] at hsk
          cases hskv : p_skip_ws l with
          | nil =>
            rw [hskv] at hpv
            obtain ⟨e, he⟩ := parse_value_nil_error f
            rw [he] at hpv
            exact absurd hpv (by simp)
          | cons c0 rr0 =>
            rw [hskv] at hpv
            have hvext := ihv (c0 :: rr0) t v0 r0 hpv (Or.inl hr0)
            rw [List.cons_append] at hvext
            rw [p_skip_ws_append l t c0 rr0 hskv, hvext]
            simp only []
            rw [p_skip_ws_append r0 t d r2 hsk]
            simp only [] at h ⊢
            by_cases hcm : d = ','
            · rw [if_pos hcm] at h ⊢
              exact ihi (acc.snoc v0) r2 t v r h
            · rw [if_neg hcm] at h ⊢
              by_cases hbr : d = ']'
              · rw [if_pos hbr] at h ⊢
                simp only [Except.ok.injEq, Prod.mk.injEq] at h
                obtain ⟨h1, h2⟩ := h
                subst h1; subst h2
                rfl
              · rw [if_neg hbr] at h
                exact absurd h (by simp)

/-- Fuel monotonicity, general form. -/
theorem parse_value_mono (f f' : Nat) (hf : f ≤ f') (l : List Char)
    (res : JValue × List Char) (h : parse_value f l = .ok res) :
    parse_value f' l = .ok res := by
  induction f', hf using Nat.le_induction with
  | base => exact h
  | succ k hk ih => exact (parser_mono_step k).1 l res ih

/-- C9: `parse_top` never checks that the whole input was consumed: a
document that parses successfully still parses, with the same record list,
after arbitrary bytes are appended, and the concrete garbage-suffix
example is accepted. -/
theorem C9_trailing_bytes_ignored :
    (∀ (s t : List Char) (recs : List JValue),
      parse_top_list s = .ok recs → parse_top_list (s ++ t) = .ok recs) ∧
    parse_top "\x7b\"a\":1\x7dgarbage" =
      .ok [JValue.jobject (JMembers.cons "a" (JValue.jnumber "1") JMembers.nil)] := by
  refine ⟨?_, rfl⟩
  intro s t recs h
  unfold parse_top_list at h ⊢
  cases hsk : p_skip_ws s with
  | nil =>
    rw [hsk] at h
    obtain ⟨e, he⟩ := parse_value_nil_error (top_fuel s)
    rw [he] at h
    exact absurd h (by simp)
  | cons c r0 =>
    rw [hsk] at h
    cases hpv : parse_value (top_fuel s) (c :: r0) with
    | error e => rw [hpv] at h; exact absurd h (by simp)
    | ok q =>
      obtain ⟨top, rest⟩ := q
      rw [hpv] at h
      have hfuel : top_fuel s ≤ top_fuel (s ++ t) := by
        unfold top_fuel
        rw [List.length_append]
        omega
      have hmono := parse_value_mono (top_fuel s) (top_fuel (s ++ t)) hfuel
        (c :: r0) (top, rest) hpv
      rw [p_skip_ws_append s t c r0 hsk]
      cases top with
      | jobject ms =>
        have hext := (parser_append (top_fuel (s ++ t))).1 (c :: r0) t
          (.jobject ms) rest hmono (Or.inr rfl)
        rw [List.cons_append] at hext
        rw [hext]
        simp only [] at h ⊢
        exact h
      | jarray items =>
        have hext := (parser_append (top_fuel (s ++ t))).1 (c :: r0) t
          (.jarray items) rest hmono (Or.inr rfl)
        rw [List.cons_append] at hext
        rw [hext]
        simp only [] at h ⊢
        exact h
      | jnull => exact absurd h (by simp)
      | jbool b => exact absurd h (by simp)
      | jnumber n => exact absurd h (by simp)
      | jstring str => exact absurd h (by simp)

/-- Witness for C9: the universal part applied to `{}` with a garbage
suffix. -/
theorem C9_trailing_bytes_ignored_witness :
    parse_top_list ("\x7b\x7d".data ++ "1,2,3".data) = .ok [JValue.jobject JMembers.nil] :=
  C9_trailing_bytes_ignored.1 "\x7b\x7d".data "1,2,3".data
    [JValue.jobject JMembers.nil] rfl

/-- Aligning to 1 (all string copies in the flattener) is the identity. -/
theorem a_align_up_one (x : Nat) : a_align_up x 1 = x := by
  unfold a_align_up
  simp [Nat.mod_one]

/-- Slice descriptor as the flattener sees it: either a copy in the
scratch arena (`arena_slice_dup` result) or a view of memory outside the
scratch arena (the input buffer, the permanent tree, or a static string,
all unchanged by scratch activity). -/
inductive CSlice : Type where
  | arena (ptr len : Nat)
  | pureS (s : String)

/-- `StrSlice.len` of a descriptor. -/
def cslice_len : CSlice → Nat
  | .arena _ n => n
  | .pureS s => s.length

/-- Byte content of a string (one cell per byte). -/
def str_bytes (s : String) : List Nat := s.data.map Char.toNat

/-- Read a slice's byte content back out of the arena. -/
def read_slice (ar : Arena) : CSlice → List Nat
  | .arena p n => mem_read ar.mem p n
  | .pureS s => str_bytes s

/-- `arena_slice_dup` into the scratch arena: allocate `len + 1` cells
(alignment 1), store the bytes plus the NUL terminator. -/
def arena_slice_dup (ar : Arena) (bs : List Nat) : Option (Arena × CSlice) :=
  match arena_alloc ar (bs.length + 1) 1 with
  | none => none
  | some (ar2, p) =>
    some ({ ar2 with mem := mem_write ar2.mem p (bs ++ [0]) }, .arena p bs.length)

/-- `make_key` as executed against the scratch arena: an empty running
prefix duplicates the key alone, otherwise the prefix bytes are read back,
dot-joined with the key, and the result duplicated. -/
def make_key_a (ar : Arena) (pfx : CSlice) (k : String) : Option (Arena × CSlice) :=
  if cslice_len pfx = 0 then arena_slice_dup ar (str_bytes k)
  else arena_slice_dup ar (read_slice ar pfx ++ str_bytes "." ++ str_bytes k)

mutual

/-- `flatten_value` threading the scratch arena: array values are joined
or serialized and then duplicated into the arena (`join_array_primitives`
and `json_array_to_string` both end in `arena_slice_dup(&A_tmp, ...)`),
primitive leaves alias memory outside the scratch arena.  The KV list
itself is kept as a ghost list (its arena-backed storage carries no
content of its own). -/
def flatten_value_a : JValue → CSlice → List (CSlice × CSlice) → Arena →
    Option (List (CSlice × CSlice) × Arena)
  | .jobject ms, pfx, out, ar => flatten_object_a ms pfx out ar
  | .jarray items, pfx, out, ar =>
    if array_is_all_primitives items then
      match arena_slice_dup ar (str_bytes (join_array_primitives items)) with
      | none => none
      | some (ar2, vs) => some (out ++ [(pfx, vs)], ar2)
    else
      match arena_slice_dup ar (str_bytes (json_array_to_string items)) with
      | none => none
      | some (ar2, vs) => some (out ++ [(pfx, vs)], ar2)
  | v, pfx, out, ar => some (out ++ [(pfx, .pureS (slice_primitive v))], ar)

/-- `flatten_object` threading the scratch arena. -/
def flatten_object_a : JMembers → CSlice → List (CSlice × CSlice) → Arena →
    Option (List (CSlice × CSlice) × Arena)
  | .nil, _, out, ar => some (out, ar)
  | .cons k v tl, pfx, out, ar =>
    match make_key_a ar pfx k with
    | none => none
    | some (ar2, nk) =>
      match flatten_value_a v nk out ar2 with
      | none => none
      | some (out2, ar3) => flatten_object_a tl pfx out2 ar3

end

/-- A slice is wholly below the arena's current offset (so later
allocations cannot touch it). -/
def slice_ok (ar : Arena) : CSlice → Prop
  | .arena p n => p + n ≤ ar.off
  | .pureS _ => True

/-- Every slice in a KV list is intact. -/
def out_ok (ar : Arena) (out : List (CSlice × CSlice)) : Prop :=
  ∀ kv ∈ out, slice_ok ar kv.1 ∧ slice_ok ar kv.2

/-- Read a whole KV list's content back out of the arena. -/
def read_out (ar : Arena) (out : List (CSlice × CSlice)) : List (List Nat × List Nat) :=
  out.map (fun kv => (read_slice ar kv.1, read_slice ar kv.2))

/-- String append concatenates byte content. -/
theorem str_bytes_append (a b : String) :
    str_bytes (a ++ b) = str_bytes a ++ str_bytes b := by
  simp [str_bytes]

/-- An intact slice stays intact as the offset advances. -/
theorem slice_ok_mono (ar ar2 : Arena) (sl : CSlice) (h : slice_ok ar sl)
    (hoff : ar.off ≤ ar2.off) : slice_ok ar2 sl := by
  cases sl with
  | arena p n => exact le_trans h hoff
  | pureS s => trivial

/-- Reads of equal cells are equal. -/
theorem mem_read_congr (m m2 : List Nat) (p n : Nat)
    (h : ∀ i, i < n → m.getD (p + i) 0 = m2.getD (p + i) 0) :
    mem_read m p n = mem_read m2 p n := by
  unfold mem_read
  refine List.map_congr_left ?_
  intro x hx
  exact h x (List.mem_range.mp hx)

/-- Reading an intact slice is unaffected by later allocations. -/
theorem read_slice_persist (ar ar2 : Arena) (sl : CSlice) (h : slice_ok ar sl)
    (hmem : ∀ i, i < ar.off → ar2.mem.getD i 0 = ar.mem.getD i 0) :
    read_slice ar2 sl = read_slice ar sl := by
  cases sl with
  | arena p n =>
    unfold read_slice
    exact mem_read_congr _ _ p n (fun i hi => hmem (p + i) (by unfold slice_ok at h; omega))
  | pureS s => rfl

/-- Reading an intact KV list is unaffected by later allocations. -/
theorem read_out_persist (ar ar2 : Arena) (out : List (CSlice × CSlice))
    (h : out_ok ar out)
    (hmem : ∀ i, i < ar.off → ar2.mem.getD i 0 = ar.mem.getD i 0) :
    read_out ar2 out = read_out ar out := by
  unfold read_out
  refine List.map_congr_left ?_
  intro kv hkv
  obtain ⟨h1, h2⟩ := h kv hkv
  rw [read_slice_persist ar ar2 kv.1 h1 hmem, read_slice_persist ar ar2 kv.2 h2 hmem]

/-- An intact KV list stays intact as the offset advances. -/
theorem out_ok_mono (ar ar2 : Arena) (out : List (CSlice × CSlice))
    (h : out_ok ar out) (hoff : ar.off ≤ ar2.off) : out_ok ar2 out := by
  intro kv hkv
  obtain ⟨h1, h2⟩ := h kv hkv
  exact ⟨slice_ok_mono ar ar2 kv.1 h1 hoff, slice_ok_mono ar ar2 kv.2 h2 hoff⟩

/-- What one `arena_slice_dup` does: the arena grows, cells below the old
offset are untouched, and the new slice is intact and reads back as
exactly the stored bytes. -/
theorem arena_slice_dup_sound (ar : Arena) (bs : List Nat) (ar2 : Arena) (sl : CSlice)
    (hlen : ar.mem.length = ar.cap) (hoff : ar.off ≤ ar.cap)
    (h : arena_slice_dup ar bs = some (ar2, sl)) :
    ar2.cap = ar.cap ∧ ar2.mem.length = ar.mem.length ∧ ar.off ≤ ar2.off ∧
    ar2.off ≤ ar2.cap ∧
    (∀ i, i < ar.off → ar2.mem.getD i 0 = ar.mem.getD i 0) ∧
    slice_ok ar2 sl ∧ read_slice ar2 sl = bs := by
  unfold arena_slice_dup arena_alloc at h
  rw [a_align_up_one] at h
  by_cases hcap : ar.off + (bs.length + 1) > ar.cap
  · rw [if_pos hcap] at h
    exact absurd h (by simp)
  · rw [if_neg hcap] at h
    simp only [Option.some.injEq, Prod.mk.injEq] at h
    obtain ⟨h1, h2⟩ := h
    subst h2
    subst h1
    refine ⟨rfl, mem_write_length _ _ _,
      (by show ar.off ≤ ar.off + (bs.length + 1); omega), ?_, ?_, ?_, ?_⟩
    · show ar.off + (bs.length + 1) ≤ ar.cap
      omega
    · intro i hi
      exact mem_write_getD_lt _ _ _ _ (by omega)
    · show ar.off + bs.length ≤ ar.off + (bs.length + 1)
      omega
    · show mem_read (mem_write ar.mem ar.off (bs ++ [0])) ar.off bs.length = bs
      refine List.ext_getElem ?_ ?_
      · rw [mem_read_length]
      · intro i h1x h2
        rw [mem_read_length] at h1x
        have hwr := mem_write_getD_in (bs ++ [0]) ar.mem ar.off i
          (by simp; omega) (by simp; omega)
        calc (mem_read (mem_write ar.mem ar.off (bs ++ [0])) ar.off bs.length)[i]
            = (mem_read (mem_write ar.mem ar.off (bs ++ [0])) ar.off bs.length).getD i 0 := by
              rw [List.getD_eq_getElem _ 0 (by rw [mem_read_length]; exact h1x)]
          _ = (mem_write ar.mem ar.off (bs ++ [0])).getD (ar.off + i) 0 :=
              mem_read_getD _ _ _ _ h1x
          _ = (bs ++ [0]).getD i 0 := hwr
          _ = bs.getD i 0 := by
              rw [List.getD_eq_getElem _ 0 (by simp; omega),
                List.getD_eq_getElem _ 0 h2, List.getElem_append_left]
          _ = bs[i] := List.getD_eq_getElem _ 0 h2

/-- `flatten_object` relative to an accumulator. -/
theorem flatten_object_acc (ms : JMembers) (p : String) (out : List (String × String)) :
    flatten_object ms p out = out ++ flatten_object ms p [] := by
  rw [flatten_object_eq_spec_aux (sizeOf ms) ms le_rfl p out,
    flatten_object_eq_spec_aux (sizeOf ms) ms le_rfl p []]
  simp

/-- `flatten_value` relative to an accumulator. -/
theorem flatten_value_acc (v : JValue) (p : String) (out : List (String × String)) :
    flatten_value v p out = out ++ flatten_value v p [] := by
  cases v with
  | jobject ms => exact flatten_object_acc ms p out
  | jarray items =>
    by_cases hp : array_is_all_primitives items = true <;> simp [flatten_value, hp]
  | jnull => simp [flatten_value]
  | jbool b => simp [flatten_value]
  | jnumber s2 => simp [flatten_value]
  | jstring s2 => simp [flatten_value]

/-- `str_bytes` has one byte per character. -/
theorem str_bytes_length (s : String) : (str_bytes s).length = s.length := by
  cases s with
  | mk d => simp [str_bytes, String.length]

/-- Reading back a slice yields `cslice_len` bytes. -/
theorem read_slice_length (ar : Arena) (sl : CSlice) :
    (read_slice ar sl).length = cslice_len sl := by
  cases sl with
  | arena p n => exact mem_read_length _ _ _
  | pureS s => exact str_bytes_length s

/-- `make_key_a` duplicates exactly the bytes of the pure `make_key`. -/
theorem make_key_a_eq (ar : Arena) (pfx : CSlice) (k ps : String)
    (hpread : read_slice ar pfx = str_bytes ps) :
    make_key_a ar pfx k = arena_slice_dup ar (str_bytes (make_key ps k)) := by
  have hlen : cslice_len pfx = ps.length := by
    rw [← read_slice_length ar pfx, hpread]
    exact str_bytes_length ps
  unfold make_key_a
  by_cases hz : cslice_len pfx = 0
  · rw [if_pos hz]
    have hps : ps.length = 0 := by omega
    rw [make_key, if_pos hps]
  · rw [if_neg hz]
    have hps : ¬ ps.length = 0 := by omega
    rw [make_key, if_neg hps, hpread, str_bytes_append, str_bytes_append]

/-- Reading a pure slice is the identity. -/
theorem read_slice_pure (ar : Arena) (s : String) :
    read_slice ar (.pureS s) = str_bytes s := rfl

/-- What the primitive-leaf arm of `flatten_value_a` achieves. -/
theorem flatten_prim_sound (v : JValue) (ps : String) (pfx : CSlice)
    (out : List (CSlice × CSlice)) (ar : Arena)
    (hoffc : ar.off ≤ ar.cap) (hpok : slice_ok ar pfx)
    (hpread : read_slice ar pfx = str_bytes ps) (houtok : out_ok ar out)
    (hpure : flatten_value v ps [] = [(ps, slice_primitive v)]) :
    ar.cap = ar.cap ∧ ar.mem.length = ar.mem.length ∧ ar.off ≤ ar.off ∧
    ar.off ≤ ar.cap ∧ (∀ i, i < ar.off → ar.mem.getD i 0 = ar.mem.getD i 0) ∧
    out_ok ar (out ++ [(pfx, .pureS (slice_primitive v))]) ∧
    read_out ar (out ++ [(pfx, .pureS (slice_primitive v))]) =
      read_out ar out ++
        (flatten_value v ps []).map (fun kv => (str_bytes kv.1, str_bytes kv.2)) := by
  refine ⟨rfl, rfl, le_rfl, hoffc, fun i _ => rfl, ?_, ?_⟩
  · intro kv hkv
    rcases List.mem_append.mp hkv with hin | hnew
    · exact houtok kv hin
    · rcases List.mem_singleton.mp hnew with rfl
      exact ⟨hpok, trivial⟩
  · rw [hpure]
    simp [read_out, hpread, read_slice_pure]

/-- What the array arms of `flatten_value_a` achieve: one duplication of
the rendered array text. -/
theorem flatten_arr_sound (ps : String) (pfx : CSlice)
    (out : List (CSlice × CSlice)) (ar ar2 : Arena) (vs : CSlice) (s : String)
    (hmlen : ar.mem.length = ar.cap) (hoffc : ar.off ≤ ar.cap)
    (hpok : slice_ok ar pfx) (hpread : read_slice ar pfx = str_bytes ps)
    (houtok : out_ok ar out)
    (hdup : arena_slice_dup ar (str_bytes s) = some (ar2, vs)) :
    ar2.cap = ar.cap ∧ ar2.mem.length = ar.mem.length ∧ ar.off ≤ ar2.off ∧
    ar2.off ≤ ar2.cap ∧ (∀ i, i < ar.off → ar2.mem.getD i 0 = ar.mem.getD i 0) ∧
    out_ok ar2 (out ++ [(pfx, vs)]) ∧
    read_out ar2 (out ++ [(pfx, vs)]) =
      read_out ar out ++ [(str_bytes ps, str_bytes s)] := by
  obtain ⟨d1, d2, d3, d4, d5, d6, d7⟩ := arena_slice_dup_sound ar _ ar2 vs hmlen hoffc hdup
  refine ⟨d1, d2, d3, d4, d5, ?_, ?_⟩
  · intro kv hkv
    rcases List.mem_append.mp hkv with hin | hnew
    · obtain ⟨e1, e2⟩ := houtok kv hin
      exact ⟨slice_ok_mono ar ar2 _ e1 d3, slice_ok_mono ar ar2 _ e2 d3⟩
    · rcases List.mem_singleton.mp hnew with rfl
      exact ⟨slice_ok_mono ar ar2 _ hpok d3, d6⟩
  · have hro := read_out_persist ar ar2 out houtok d5
    have hrp := read_slice_persist ar ar2 pfx hpok d5
    have hsplit : read_out ar2 (out ++ [(pfx, vs)]) =
        read_out ar2 out ++ [(read_slice ar2 pfx, read_slice ar2 vs)] := by
      simp [read_out]
    rw [hsplit, hro, hrp, hpread, d7]

/-- Soundness of the arena-threaded flatten against the pure flatten:
the arena only grows, cells below the starting offset are untouched,
every produced slice is intact, and reading the produced KV list back
out of the arena gives exactly the byte content of the pure
`flatten_value` / `flatten_object` run. -/
theorem flatten_a_sound (n : Nat) :
    (∀ v : JValue, sizeOf v ≤ n → ∀ (pfx : CSlice) (out : List (CSlice × CSlice))
      (ar : Arena) (ps : String) (out2 : List (CSlice × CSlice)) (ar2 : Arena),
      ar.mem.length = ar.cap → ar.off ≤ ar.cap → slice_ok ar pfx →
      read_slice ar pfx = str_bytes ps → out_ok ar out →
      flatten_value_a v pfx out ar = some (out2, ar2) →
      ar2.cap = ar.cap ∧ ar2.mem.length = ar.mem.length ∧ ar.off ≤ ar2.off ∧
      ar2.off ≤ ar2.cap ∧ (∀ i, i < ar.off → ar2.mem.getD i 0 = ar.mem.getD i 0) ∧
      out_ok ar2 out2 ∧
      read_out ar2 out2 = read_out ar out ++
        (flatten_value v ps []).map (fun kv => (str_bytes kv.1, str_bytes kv.2))) ∧
    (∀ ms : JMembers, sizeOf ms ≤ n → ∀ (pfx : CSlice) (out : List (CSlice × CSlice))
      (ar : Arena) (ps : String) (out2 : List (CSlice × CSlice)) (ar2 : Arena),
      ar.mem.length = ar.cap → ar.off ≤ ar.cap → slice_ok ar pfx →
      read_slice ar pfx = str_bytes ps → out_ok ar out →
      flatten_object_a ms pfx out ar = some (out2, ar2) →
      ar2.cap = ar.cap ∧ ar2.mem.length = ar.mem.length ∧ ar.off ≤ ar2.off ∧
      ar2.off ≤ ar2.cap ∧ (∀ i, i < ar.off → ar2.mem.getD i 0 = ar.mem.getD i 0) ∧
      out_ok ar2 out2 ∧
      read_out ar2 out2 = read_out ar out ++
        (flatten_object ms ps []).map (fun kv => (str_bytes kv.1, str_bytes kv.2))) := by
  induction n with
  | zero =>
    constructor
    · intro v hsz
      exfalso
      cases v <;> simp at hsz
    · intro ms hsz
      exfalso
      cases ms <;> simp at hsz
  | succ n ihn =>
    obtain ⟨ihv, ihm⟩ := ihn
    constructor
    · intro v hsz pfx out ar ps out2 ar2 hmlen hoffc hpok hpread houtok h
      cases v with
      | jobject ms =>
        rw [flatten_value_a.eq_def] at h
        simp only [] at h
        have hszm : sizeOf ms ≤ n := by
          simp only [JValue.jobject.sizeOf_spec] at hsz; omega
        have hres := ihm ms hszm pfx out ar ps out2 ar2 hmlen hoffc hpok hpread houtok h
        have hpure : flatten_value (JValue.jobject ms) ps [] = flatten_object ms ps [] := by
          simp [flatten_value]
        rw [hpure]
        exact hres
      | jarray items =>
        rw [flatten_value_a.eq_def] at h
        simp only [] at h
        by_cases hprim : array_is_all_primitives items = true
        · rw [if_pos hprim] at h
          cases hdup : arena_slice_dup ar (str_bytes (join_array_primitives items)) with
          | none => rw [hdup] at h; simp at h
          | some pr =>
            obtain ⟨arD, vs⟩ := pr
            rw [hdup] at h
            simp only [Option.some.injEq, Prod.mk.injEq] at h
            obtain ⟨h1, h2⟩ := h
            subst h1
            subst h2
            have hpure : (flatten_value (JValue.jarray items) ps []).map
                (fun kv => (str_bytes kv.1, str_bytes kv.2)) =
                [(str_bytes ps, str_bytes (join_array_primitives items))] := by
              simp [flatten_value, hprim]
            rw [hpure]
            exact flatten_arr_sound ps pfx out ar arD vs _ hmlen hoffc hpok hpread houtok hdup
        · rw [if_neg hprim] at h
          cases hdup : arena_slice_dup ar (str_bytes (json_array_to_string items)) with
          | none => rw [hdup] at h; simp at h
          | some pr =>
            obtain ⟨arD, vs⟩ := pr
            rw [hdup] at h
            simp only [Option.some.injEq, Prod.mk.injEq] at h
            obtain ⟨h1, h2⟩ := h
            subst h1
            subst h2
            have hpure : (flatten_value (JValue.jarray items) ps []).map
                (fun kv => (str_bytes kv.1, str_bytes kv.2)) =
                [(str_bytes ps, str_bytes (json_array_to_string items))] := by
              simp [flatten_value, hprim]
            rw [hpure]
            exact flatten_arr_sound ps pfx out ar arD vs _ hmlen hoffc hpok hpread houtok hdup
      | jnull =>
        rw [flatten_value_a.eq_def] at h
        simp only [Option.some.injEq, Prod.mk.injEq] at h
        obtain ⟨h1, h2⟩ := h
        subst h1
        subst h2
        exact flatten_prim_sound JValue.jnull ps pfx out ar hoffc hpok hpread houtok
          (by simp [flatten_value])
      | jbool b =>
        rw [flatten_value_a.eq_def] at h
        simp only [Option.some.injEq, Prod.mk.injEq] at h
        obtain ⟨h1, h2⟩ := h
        subst h1
        subst h2
        exact flatten_prim_sound (JValue.jbool b) ps pfx out ar hoffc hpok hpread houtok
          (by simp [flatten_value])
      | jnumber s =>
        rw [flatten_value_a.eq_def] at h
        simp only [Option.some.injEq, Prod.mk.injEq] at h
        obtain ⟨h1, h2⟩ := h
        subst h1
        subst h2
        exact flatten_prim_sound (JValue.jnumber s) ps pfx out ar hoffc hpok hpread houtok
          (by simp [flatten_value])
      | jstring s =>
        rw [flatten_value_a.eq_def] at h
        simp only [Option.some.injEq, Prod.mk.injEq] at h
        obtain ⟨h1, h2⟩ := h
        subst h1
        subst h2
        exact flatten_prim_sound (JValue.jstring s) ps pfx out ar hoffc hpok hpread houtok
          (by simp [flatten_value])
    · intro ms hsz pfx out ar ps out2 ar2 hmlen hoffc hpok hpread houtok h
      cases ms with
      | nil =>
        rw [flatten_object_a.eq_def] at h
        simp only [Option.some.injEq, Prod.mk.injEq] at h
        obtain ⟨h1, h2⟩ := h
        subst h1
        subst h2
        refine ⟨rfl, rfl, le_rfl, hoffc, fun i _ => rfl, houtok, ?_⟩
        simp [flatten_object]
      | cons k v tl =>
        rw [flatten_object_a.eq_def] at h
        simp only [] at h
        simp only [JMembers.cons.sizeOf_spec] at hsz
        have hszv : sizeOf v ≤ n := by omega
        have hsztl : sizeOf tl ≤ n := by omega
        cases hmk : make_key_a ar pfx k with
        | none => rw [hmk] at h; simp at h
        | some pr =>
          obtain ⟨arB, nk⟩ := pr
          rw [hmk] at h
          simp only [] at h
          rw [make_key_a_eq ar pfx k ps hpread] at hmk
          obtain ⟨d1, d2, d3, d4, d5, d6, d7⟩ :=
            arena_slice_dup_sound ar _ arB nk hmlen hoffc hmk
          cases hfv : flatten_value_a v nk out arB with
          | none => rw [hfv] at h; simp at h
          | some pr2 =>
            obtain ⟨outC, arC⟩ := pr2
            rw [hfv] at h
            simp only [] at h
            have hmemB : arB.mem.length = arB.cap := by rw [d2, d1, hmlen]
            obtain ⟨e1, e2, e3, e4, e5, e6, e7⟩ :=
              ihv v hszv nk out arB (make_key ps k) outC arC hmemB d4 d6 d7
                (out_ok_mono ar arB out houtok d3) hfv
            have hpokB : slice_ok arB pfx := slice_ok_mono ar arB pfx hpok d3
            have hpreadB : read_slice arB pfx = str_bytes ps := by
              rw [read_slice_persist ar arB pfx hpok d5, hpread]
            have hpokC : slice_ok arC pfx := slice_ok_mono arB arC pfx hpokB e3
            have hpreadC : read_slice arC pfx = str_bytes ps := by
              rw [read_slice_persist arB arC pfx hpokB e5, hpreadB]
            have hmemC : arC.mem.length = arC.cap := by rw [e2, e1, hmemB]
            obtain ⟨f1, f2, f3, f4, f5, f6, f7⟩ :=
              ihm tl hsztl pfx outC arC ps out2 ar2 hmemC e4 hpokC hpreadC e6 h
            refine ⟨by rw [f1, e1, d1], by rw [f2, e2, d2],
              le_trans d3 (le_trans e3 f3), f4, ?_, f6, ?_⟩
            · intro i hi
              rw [f5 i (lt_of_lt_of_le hi (le_trans d3 e3)),
                e5 i (lt_of_lt_of_le hi d3), d5 i hi]
            · have hpure : flatten_object (JMembers.cons k v tl) ps [] =
                  flatten_value v (make_key ps k) [] ++ flatten_object tl ps [] := by
                rw [flatten_object, flatten_object_acc]
              rw [f7, e7, read_out_persist ar arB out houtok d5, hpure, List.map_append,
                List.append_assoc]

/-- **C8.** For every record object, flattening it twice with the scratch
arena reset to the same mark between the two calls (as pass 1 then pass 2
of `main` do via `arena_mark` / `arena_reset`) yields KV lists with
identical key and value content both times: each run reads back exactly
the byte content of the pure flatten, so the reset fully reclaims scratch
memory without corrupting the second run's allocations. -/
theorem C8_scratch_reset_identical_content
    (ms : JMembers) (a a1 a2 : Arena) (kv1 kv2 : List (CSlice × CSlice))
    (hmlen : a.mem.length = a.cap) (hoffc : a.off ≤ a.cap)
    (h1 : flatten_object_a ms (.pureS "") [] a = some (kv1, a1))
    (h2 : flatten_object_a ms (.pureS "") [] (arena_reset a1 (arena_mark a)) =
      some (kv2, a2)) :
    read_out a1 kv1 = read_out a2 kv2 ∧
    read_out a1 kv1 = (flatten_object ms "" []).map
      (fun kv => (str_bytes kv.1, str_bytes kv.2)) := by
  obtain ⟨c1, c2, c3, c4, c5, c6, r1⟩ :=
    (flatten_a_sound (sizeOf ms)).2 ms le_rfl (.pureS "") [] a "" kv1 a1
      hmlen hoffc trivial rfl (fun kv hkv => absurd hkv (List.not_mem_nil kv)) h1
  have hmlenR : (arena_reset a1 (arena_mark a)).mem.length =
      (arena_reset a1 (arena_mark a)).cap := by
    show a1.mem.length = a1.cap
    rw [c2, c1, hmlen]
  have hoffcR : (arena_reset a1 (arena_mark a)).off ≤
      (arena_reset a1 (arena_mark a)).cap := by
    show a.off ≤ a1.cap
    rw [c1]
    exact hoffc
  obtain ⟨d1, d2, d3, d4, d5, d6, r2⟩ :=
    (flatten_a_sound (sizeOf ms)).2 ms le_rfl (.pureS "") []
      (arena_reset a1 (arena_mark a)) "" kv2 a2 hmlenR hoffcR trivial rfl
      (fun kv hkv => absurd hkv (List.not_mem_nil kv)) h2
  have hnil1 : read_out a ([] : List (CSlice × CSlice)) = [] := rfl
  have hnil2 : read_out (arena_reset a1 (arena_mark a))
      ([] : List (CSlice × CSlice)) = [] := rfl
  rw [hnil1, List.nil_append] at r1
  rw [hnil2, List.nil_append] at r2
  exact ⟨r1.trans r2.symm, r1⟩

def c8_ms : JMembers := .cons "a" (.jobject (.cons "b" (.jstring "1") .nil)) .nil

def c8_a0 : Arena := ⟨32, 0, List.replicate 32 0⟩

def c8_a1 : Arena := ⟨32, 6, [97, 0, 97, 46, 98, 0] ++ List.replicate 26 0⟩

def c8_kv : List (CSlice × CSlice) := [(.arena 2 3, .pureS "1")]

/-- Witness: flattening the record `{"a":{"b":"1"}}` twice through a
32-byte scratch arena with a reset to mark 0 in between yields the same
KV content both times, equal to the pure flatten's bytes. -/
theorem C8_scratch_reset_identical_content_witness :
    read_out c8_a1 c8_kv = read_out c8_a1 c8_kv ∧
    read_out c8_a1 c8_kv = (flatten_object c8_ms "" []).map
      (fun kv => (str_bytes kv.1, str_bytes kv.2)) :=
  C8_scratch_reset_identical_content c8_ms c8_a0 c8_a1 c8_a1 c8_kv c8_kv rfl
    (Nat.zero_le _) rfl rfl
